import Mathlib

/-!
A verification development for the record-extraction → type-conformance →
batch-chunking pipeline of the `tap-rawmysql` repository
(`tap_rawmysql/client.py`).

The Python functions are shallowly embedded as executable Lean
definitions: Python dictionaries become association lists that keep
Python's insertion-order update semantics, the generator pipeline of
`get_batches` becomes explicit state passing together with a trace of
storage operations, and raised exceptions become `Except.error`.
External collaborators (the singer SDK's generic conformance helper, the
state store, `json.dumps`/`json.loads`, gzip) are modelled from the
specification at their interface boundary and are marked as such.
-/

namespace TapRawMysql

/-- Source-native values as delivered by the database driver, together
with the JSON-safe values produced by conformance.  `uuid` carries the
identifier's canonical string form; `dec` is a fixed-point decimal
`mantissa × 10^(-scale)`; `float` is the result of Python's `float()`
applied to such a decimal (kept exact here, since the claims under
study concern record keys, not floating-point rounding); `datetime`
carries the ISO-8601 rendering that generic conformance produces. -/
inductive PyVal where
  | none
  | bool (b : Bool)
  | int (n : Int)
  | str (s : String)
  | datetime (iso : String)
  | uuid (canonical : String)
  | dec (mantissa : Int) (scale : Nat)
  | float (mantissa : Int) (scale : Nat)
deriving Repr, DecidableEq

/-- A Python `dict[str, Any]` with string keys, as an association list in
insertion order. -/
abbrev PyDict := List (String × PyVal)

/-- Python dictionary assignment `d[k] = v`: updates the existing entry in
place when the key is present, otherwise appends the new entry. -/
def dictSet (d : PyDict) (k : String) (v : PyVal) : PyDict :=
  if d.any (fun kv => kv.1 == k) then
    d.map (fun kv => if kv.1 == k then (k, v) else kv)
  else d ++ [(k, v)]

/-- Modelled from the spec: the value coercion performed by the generic
schema-driven conformance routine — date/time values are coerced to their
ISO-8601 string rendering; unique-identifier and fixed-point decimal
values are the two classes the generic routine does not handle and are
left untouched for the post-pass. -/
def conformValue : PyVal → PyVal
  | .datetime iso => .str iso
  | v => v

/-- Modelled from the spec: `conform_record_data_types` (a singer SDK
helper, an external collaborator of this repository): every schema
property present in the raw record is kept with its value coerced toward
the declared JSON type, and keys absent from the schema are removed from
the result (after a once-per-name warning, a side effect not modelled
here).  `schemaProps` is the list of the schema's property names. -/
def conform_record_data_types (record : PyDict) (schemaProps : List String) : PyDict :=
  (record.filter (fun kv => schemaProps.contains kv.1)).map
    (fun kv => (kv.1, conformValue kv.2))

/-- `conform_record_data_types_and_uuid` from `tap_rawmysql/client.py`
(lines 96–115): generic conformance first, then a post-pass over the
*original* record that rewrites UUID values to their canonical string and
Decimal values to floats, assigning into the already-conformed dict.
The `stream_name` argument is carried for fidelity; the logger argument
only feeds the once-per-name warning and is not modelled. -/
def conform_record_data_types_and_uuid (_streamName : String) (record : PyDict)
    (schemaProps : List String) : PyDict :=
  let conformed := conform_record_data_types record schemaProps
  record.foldl
    (fun acc kv =>
      match kv.2 with
      | .uuid u => dictSet acc kv.1 (.str u)
      | .dec m e => dictSet acc kv.1 (.float m e)
      | _ => acc)
    conformed

/-- The keys of a conformed record. -/
def dictKeys (d : PyDict) : List String := d.map Prod.fst

/-- The per-stream configuration mapping, restricted to the fields
`get_records` reads.  An `Option.none` in `replication_key` models the
key being absent from the mapping (so that Python's
`stream_config.get("replication_key", context)` falls back to its
default argument).  Scalar values are modelled as strings. -/
structure StreamConfig where
  sql : String
  replication_key : Option String
  replication_key_value_start : Option String
deriving Repr, DecidableEq

/-- The observable outcome of `get_records` up to the query execution
point: the SQL text handed to `sqlalchemy.text` and the named parameters
bound for the execution.  A `QueryExec` value is constructed exactly at
the point the code reaches `self.connector.connection.execute`, so an
`Except.error` result witnesses that no query was executed. -/
structure QueryExec where
  sql : String
  params : List (String × String)
deriving Repr, DecidableEq

/-- Python truthiness of a string: non-empty. -/
def truthyStr (s : String) : Bool := s ≠ ""

/-- Python truthiness of the optional context dictionary: present and
non-empty. -/
def truthyCtx : Option (List (String × String)) → Bool
  | Option.none => false
  | some c => !c.isEmpty

/-- Modelled from the spec: the singer SDK derives `replication_method`
from the stream's declared replication key — `INCREMENTAL` when a truthy
replication key is declared, `FULL_TABLE` otherwise. -/
def replication_method (cfg : StreamConfig) : String :=
  match cfg.replication_key with
  | some k => if truthyStr k then "INCREMENTAL" else "FULL_TABLE"
  | Option.none => "FULL_TABLE"

/-- `get_records` from `tap_rawmysql/client.py` (lines 206–263), embedded
up to the query-execution boundary.  `context` is the stream partition
context dictionary; `startingReplicationKeyValue` models the value the
external state store returns from
`self.get_starting_replication_key_value(context)`. -/
def get_records (cfg : StreamConfig) (context : Option (List (String × String)))
    (startingReplicationKeyValue : Option String) : Except String QueryExec :=
  if cfg.sql = "" then .error "sql is empty: "
  else
    let is_incremental := replication_method cfg = "INCREMENTAL"
    let rep_key_truthy :=
      match cfg.replication_key with
      | some k => truthyStr k
      | Option.none => truthyCtx context
    if is_incremental then
      if !rep_key_truthy then
        .error "INCREMENTAL sync not possible with a specified \x27replication_key\x27"
      else
        let rep_key_val :=
          match startingReplicationKeyValue with
          | some v => some v
          | Option.none => cfg.replication_key_value_start
        match rep_key_val with
        | Option.none => .error "No value for replication key. INCREMENTAL sync not possible."
        | some v => .ok ⟨cfg.sql, [("rep_key_val", v)]⟩
    else
      if rep_key_truthy then
        match cfg.replication_key_value_start with
        | Option.none =>
            .error "\x27replication_key\x27 is specified but no \x27replication_key_value_start\x27. FULL_TABLE sync not possible."
        | some v => .ok ⟨cfg.sql, [("rep_key_val", v)]⟩
      else .ok ⟨cfg.sql, []⟩

/-- One operation performed against the storage sink by `get_batches`:
acquiring / releasing the scoped filesystem handle
(`with batch_config.storage.fs() as fs`), opening a file for writing,
writing one serialized record line (through the gzip stream wrapped
around that file), closing the gzip stream, closing the file handle, and
resolving a file name to its retrievable URL. -/
inductive FsOp where
  | acquire
  | release
  | openW (name : String)
  | writeB (name : String) (data : List Char)
  | closeGz (name : String)
  | closeF (name : String)
  | getUrl (name : String)
deriving Repr, DecidableEq

/-- The state of one `get_batches` invocation: the local variables of the
Python generator (`i`, `chunk_size`, `filename`, `f`, `gz` — the latter
two modelled by the name of the file they are open on), the trace of
storage operations performed so far, and the manifest entries yielded so
far.  `ε` is the type of the encoding descriptor, passed through
opaquely. -/
structure GBState (ε : Type) where
  i : Nat
  chunk_size : Nat
  filename : Option String
  f : Option String
  gz : Option String
  trace : List FsOp
  yields : List (ε × List String)
deriving Repr, DecidableEq

/-- The environment of one `get_batches` invocation: the configured batch
size, the components of the sync id, the storage prefix
(`batch_config.storage.prefix`, possibly absent), `fs.geturl`, the
encoding descriptor, the per-record conformance closure
(`conform_record_data_types_and_uuid` applied to this stream's name and
schema), and the serializer (`json.dumps`). -/
structure GBEnv (ρ σ ε : Type) where
  batch_size : Nat
  tap_name : String
  stream_name : String
  uuidToken : String
  storagePfx : Option String
  geturl : String → String
  encoding : ε
  conform : ρ → σ
  dumps : σ → List Char

variable {ρ σ ε : Type}

/-- `sync_id = f"{self.tap_name}--{self.name}-{uuid4()}"`. -/
def GBEnv.sync_id (env : GBEnv ρ σ ε) : String :=
  env.tap_name ++ "--" ++ env.stream_name ++ "-" ++ env.uuidToken

/-- `prefix = batch_config.storage.prefix or ""`. -/
def GBEnv.pfx (env : GBEnv ρ σ ε) : String := env.storagePfx.getD ""

/-- `filename = f"{prefix}{sync_id}-{i}.json.gz"` for chunk index `i`. -/
def gbName (env : GBEnv ρ σ ε) (i : Nat) : String :=
  env.pfx ++ env.sync_id ++ "-" ++ Nat.repr i ++ ".json.gz"

/-- `(json.dumps(record) + "\n").encode()` for a conformed record. -/
def gbLine (env : GBEnv ρ σ ε) (r : ρ) : List Char :=
  env.dumps (env.conform r) ++ ['\n']

/-- One iteration of the record loop of `get_batches`
(`tap_rawmysql/client.py` lines 165–192): open a fresh chunk if no file
is open, serialize and write the conformed record, and seal the chunk
(close streams, resolve the URL, yield a manifest entry, reset the
counters) once `chunk_size` reaches `batch_size`.  Dereferencing a `None`
handle is an `Except.error`, as it would raise in Python. -/
def gbStep (env : GBEnv ρ σ ε) (s : GBState ε) (record : ρ) : Except String (GBState ε) :=
  let s :=
    if s.filename.isNone || s.f.isNone || s.gz.isNone then
      let fname := gbName env s.i
      { s with filename := some fname, f := some fname, gz := some fname,
               trace := s.trace ++ [.openW fname] }
    else s
  match s.gz, s.f, s.filename with
  | some _, some _, some fname =>
      let s := { s with trace := s.trace ++ [.writeB fname (gbLine env record)],
                        chunk_size := s.chunk_size + 1 }
      if env.batch_size ≤ s.chunk_size then
        .ok { s with
              trace := s.trace ++ [.closeGz fname, .closeF fname, .getUrl fname],
              yields := s.yields ++ [(env.encoding, [env.geturl fname])],
              gz := Option.none, f := Option.none, filename := Option.none,
              i := s.i + 1, chunk_size := 0 }
      else .ok s
  | _, _, _ => .error "AttributeError: \x27NoneType\x27 object has no attribute \x27write\x27"

/-- Exception propagation: run the continuation on success, propagate the
raised error otherwise. -/
def exBind {α β : Type} (x : Except String α) (g : α → Except String β) : Except String β :=
  match x with
  | .error e => .error e
  | .ok a => g a

@[simp] theorem exBind_ok {α β : Type} (a : α) (g : α → Except String β) :
    exBind (.ok a) g = g a := rfl

@[simp] theorem exBind_error {α β : Type} (e : String) (g : α → Except String β) :
    exBind (.error e) g = .error e := rfl

/-- The record loop of `get_batches`, driven by the (lazy) record
sequence. -/
def gbLoop (env : GBEnv ρ σ ε) : List ρ → GBState ε → Except String (GBState ε)
  | [], s => .ok s
  | r :: rs, s => exBind (gbStep env s r) (gbLoop env rs)

/-- The end-of-input finalization of `get_batches`
(`tap_rawmysql/client.py` lines 194–204): when records remain in the open
chunk, check the handles for internal consistency (raising `ValueError`
on a `None` handle), seal the chunk and yield the final manifest
entry. -/
def gbFinalize (env : GBEnv ρ σ ε) (s : GBState ε) : Except String (GBState ε) :=
  if 0 < s.chunk_size then
    match s.gz with
    | Option.none => .error "\x27gz\x27 was None but shouldn\x27t have been"
    | some _ =>
      match s.f with
      | Option.none => .error "\x27f\x27 was None but shouldn\x27t have been"
      | some _ =>
        match s.filename with
        | Option.none => .error "\x27filename\x27 was None but shouldn\x27t have been"
        | some fname =>
            .ok { s with
                  trace := s.trace ++ [.closeGz fname, .closeF fname, .getUrl fname],
                  yields := s.yields ++ [(env.encoding, [env.geturl fname])] }
  else .ok s

/-- The initial generator state: `i = 1`, `chunk_size = 0`, no open
handles; the filesystem handle has just been acquired. -/
def gbInit : GBState ε :=
  ⟨1, 0, Option.none, Option.none, Option.none, [FsOp.acquire], []⟩

/-- `get_batches` from `tap_rawmysql/client.py` (lines 138–204): acquire
the storage handle, run the record loop, finalize the trailing partial
chunk, release the handle. -/
def get_batches (env : GBEnv ρ σ ε) (records : List ρ) : Except String (GBState ε) :=
  exBind (gbLoop env records gbInit) fun s =>
    exBind (gbFinalize env s) fun s' =>
      .ok { s' with trace := s'.trace ++ [FsOp.release] }

/-- The outcome of running the record loop from chunk index `k` with `c`
records already in the open chunk: the final chunk index and counter,
the storage operations performed, and the manifest entries yielded. -/
structure GBOut (ε : Type) where
  k : Nat
  c : Nat
  t : List FsOp
  y : List (ε × List String)
deriving Repr, DecidableEq

/-- The three operations that seal chunk `i`: close the gzip stream,
close the file, resolve the URL. -/
def gbSealOps (env : GBEnv ρ σ ε) (i : Nat) : List FsOp :=
  [.closeGz (gbName env i), .closeF (gbName env i), .getUrl (gbName env i)]

/-- The manifest entry yielded for chunk `i`. -/
def gbEntry (env : GBEnv ρ σ ε) (i : Nat) : ε × List String :=
  (env.encoding, [env.geturl (gbName env i)])

/-- Reference recursion mirroring the record loop of `get_batches`: from
chunk index `k` with `c` records already in the open chunk, process the
remaining records, recording the storage operations and manifest
entries. -/
def gbSpec (env : GBEnv ρ σ ε) : Nat → Nat → List ρ → GBOut ε
  | k, c, [] => ⟨k, c, [], []⟩
  | k, c, r :: rs =>
      let nm := gbName env k
      let opened : List FsOp := if c = 0 then [.openW nm] else []
      let wr : FsOp := .writeB nm (gbLine env r)
      if env.batch_size ≤ c + 1 then
        let o := gbSpec env (k + 1) 0 rs
        ⟨o.k, o.c, opened ++ wr :: (gbSealOps env k ++ o.t), gbEntry env k :: o.y⟩
      else
        let o := gbSpec env k (c + 1) rs
        ⟨o.k, o.c, opened ++ wr :: o.t, o.y⟩

/-- The generator state at a loop boundary, as determined by the chunk
index `k` and the open-chunk counter `c`: handles are open on the current
chunk's file exactly when the chunk is non-empty. -/
def gbStateOf (env : GBEnv ρ σ ε) (k c : Nat) (tr : List FsOp)
    (ys : List (ε × List String)) : GBState ε :=
  { i := k, chunk_size := c,
    filename := if c = 0 then Option.none else some (gbName env k),
    f := if c = 0 then Option.none else some (gbName env k),
    gz := if c = 0 then Option.none else some (gbName env k),
    trace := tr, yields := ys }

theorem gbStep_eq (env : GBEnv ρ σ ε) (k c : Nat) (tr : List FsOp)
    (ys : List (ε × List String)) (r : ρ) :
    gbStep env (gbStateOf env k c tr ys) r =
      if env.batch_size ≤ c + 1 then
        .ok (gbStateOf env (k + 1) 0
          ((tr ++ (if c = 0 then [FsOp.openW (gbName env k)] else []) ++
            [FsOp.writeB (gbName env k) (gbLine env r)]) ++ gbSealOps env k)
          (ys ++ [gbEntry env k]))
      else
        .ok (gbStateOf env k (c + 1)
          (tr ++ (if c = 0 then [FsOp.openW (gbName env k)] else []) ++
            [FsOp.writeB (gbName env k) (gbLine env r)]) ys) := by
  by_cases hc : c = 0
  · subst hc
    by_cases hB : env.batch_size ≤ 0 + 1 <;>
      simp [gbStep, gbStateOf, gbSealOps, gbEntry, hB, List.append_assoc]
  · by_cases hB : env.batch_size ≤ c + 1 <;>
      simp [gbStep, gbStateOf, gbSealOps, gbEntry, hc, hB, List.append_assoc]

theorem gbSpec_cons (env : GBEnv ρ σ ε) (k c : Nat) (r : ρ) (rs : List ρ) :
    gbSpec env k c (r :: rs) =
      if env.batch_size ≤ c + 1 then
        ⟨(gbSpec env (k + 1) 0 rs).k, (gbSpec env (k + 1) 0 rs).c,
         (if c = 0 then [FsOp.openW (gbName env k)] else []) ++
           FsOp.writeB (gbName env k) (gbLine env r) ::
             (gbSealOps env k ++ (gbSpec env (k + 1) 0 rs).t),
         gbEntry env k :: (gbSpec env (k + 1) 0 rs).y⟩
      else
        ⟨(gbSpec env k (c + 1) rs).k, (gbSpec env k (c + 1) rs).c,
         (if c = 0 then [FsOp.openW (gbName env k)] else []) ++
           FsOp.writeB (gbName env k) (gbLine env r) :: (gbSpec env k (c + 1) rs).t,
         (gbSpec env k (c + 1) rs).y⟩ := rfl

theorem gbLoop_eq (env : GBEnv ρ σ ε) :
    ∀ (l : List ρ) (k c : Nat) (tr : List FsOp) (ys : List (ε × List String)),
      gbLoop env l (gbStateOf env k c tr ys) =
        .ok (gbStateOf env (gbSpec env k c l).k (gbSpec env k c l).c
              (tr ++ (gbSpec env k c l).t) (ys ++ (gbSpec env k c l).y)) := by
  intro l
  induction l with
  | nil => intro k c tr ys; simp [gbLoop, gbSpec]
  | cons r rs ih =>
      intro k c tr ys
      rw [gbLoop, gbStep_eq, gbSpec_cons]
      by_cases hB : env.batch_size ≤ c + 1
      · rw [if_pos hB, if_pos hB, exBind_ok, ih]
        simp [gbStateOf, List.append_assoc]
      · rw [if_neg hB, if_neg hB, exBind_ok, ih]
        simp [gbStateOf, List.append_assoc]

theorem gbFinalize_of (env : GBEnv ρ σ ε) (k c : Nat) (tr : List FsOp)
    (ys : List (ε × List String)) :
    gbFinalize env (gbStateOf env k c tr ys) =
      if 0 < c then
        .ok (gbStateOf env k c (tr ++ gbSealOps env k) (ys ++ [gbEntry env k]))
      else .ok (gbStateOf env k c tr ys) := by
  by_cases hc : 0 < c
  · have hc0 : ¬c = 0 := by omega
    simp [gbFinalize, gbStateOf, hc0, hc, gbSealOps, gbEntry]
  · have hc0 : c = 0 := by omega
    subst hc0
    simp [gbFinalize, gbStateOf]

/-- The state in which `get_batches` finishes: the loop outcome, plus the
final seal-and-yield when a partial chunk remains open, plus the release
of the filesystem handle. -/
def gbFinal (env : GBEnv ρ σ ε) (l : List ρ) : GBState ε :=
  let o := gbSpec env 1 0 l
  if 0 < o.c then
    gbStateOf env o.k o.c (FsOp.acquire :: (o.t ++ gbSealOps env o.k ++ [FsOp.release]))
      (o.y ++ [gbEntry env o.k])
  else
    gbStateOf env o.k o.c (FsOp.acquire :: (o.t ++ [FsOp.release])) o.y

theorem get_batches_eq (env : GBEnv ρ σ ε) (l : List ρ) :
    get_batches env l = .ok (gbFinal env l) := by
  unfold get_batches gbFinal
  have h0 : (gbInit : GBState ε) = gbStateOf env 1 0 [FsOp.acquire] [] := by
    simp [gbInit, gbStateOf]
  rw [h0, gbLoop_eq, exBind_ok, gbFinalize_of]
  by_cases hc : 0 < (gbSpec env 1 0 l).c
  · rw [if_pos hc, exBind_ok, if_pos hc]
    simp [gbStateOf, List.append_assoc]
  · rw [if_neg hc, exBind_ok, if_neg hc]
    simp [gbStateOf]

theorem gbSpec_count (env : GBEnv ρ σ ε) (hB : 1 ≤ env.batch_size) :
    ∀ (l : List ρ) (k c : Nat), c < env.batch_size →
      (gbSpec env k c l).y.length = (c + l.length) / env.batch_size
      ∧ (gbSpec env k c l).c = (c + l.length) % env.batch_size
      ∧ (gbSpec env k c l).k = k + (gbSpec env k c l).y.length := by
  intro l
  induction l with
  | nil =>
      intro k c hc
      simp [gbSpec, Nat.div_eq_of_lt hc, Nat.mod_eq_of_lt hc]
  | cons r rs ih =>
      intro k c hc
      rw [gbSpec_cons]
      by_cases hBc : env.batch_size ≤ c + 1
      · have hcB : c + 1 = env.batch_size := by omega
        obtain ⟨h1, h2, h3⟩ := ih (k + 1) 0 (by omega)
        have harith : c + (rs.length + 1) = env.batch_size + rs.length := by omega
        rw [if_pos hBc]
        simp only [List.length_cons, harith, h1, h2, h3]
        refine ⟨?_, ?_, by omega⟩
        · rw [Nat.add_div_left _ (by omega), Nat.zero_add]
        · rw [Nat.add_mod_left, Nat.zero_add]
      · have hc1 : c + 1 < env.batch_size := by omega
        obtain ⟨h1, h2, h3⟩ := ih k (c + 1) hc1
        have harith : c + (rs.length + 1) = c + 1 + rs.length := by omega
        rw [if_neg hBc]
        simp only [List.length_cons, harith, h1, h2, h3]
        exact ⟨trivial, trivial, trivial⟩

theorem ceil_div_arith (B N : Nat) (hB : 1 ≤ B) :
    N / B + (if N % B = 0 then 0 else 1) = (N + B - 1) / B := by
  obtain ⟨q, r, hr, hN⟩ : ∃ q r, r < B ∧ N = B * q + r :=
    ⟨N / B, N % B, Nat.mod_lt _ (by omega), (Nat.div_add_mod N B).symm⟩
  have hdiv : N / B = q := by
    rw [hN, Nat.mul_add_div (by omega), Nat.div_eq_of_lt hr, Nat.add_zero]
  have hmod : N % B = r := by
    rw [hN, Nat.mul_add_mod, Nat.mod_eq_of_lt hr]
  by_cases h0 : r = 0
  · subst h0
    have he : N + B - 1 = B * q + (B - 1) := by omega
    rw [hdiv, hmod, if_pos rfl, he, Nat.mul_add_div (by omega),
      Nat.div_eq_of_lt (by omega)]
  · have hmul : B * (q + 1) = B * q + B := by ring
    have he : N + B - 1 = B * (q + 1) + (r - 1) := by omega
    rw [hdiv, hmod, if_neg h0, he, Nat.mul_add_div (by omega),
      Nat.div_eq_of_lt (by omega)]

/-- Splitting a list into consecutive chunks of `B` elements (the last
chunk possibly shorter), by fuel on the list length. -/
def chunksOfAux {α : Type} : Nat → Nat → List α → List (List α)
  | 0, _, _ => []
  | _, _, [] => []
  | fuel + 1, B, x :: xs => (x :: xs).take B :: chunksOfAux fuel B ((x :: xs).drop B)

/-- Splitting a list into consecutive chunks of `B` elements. -/
def chunksOf {α : Type} (B : Nat) (l : List α) : List (List α) :=
  chunksOfAux l.length B l

theorem chunksOfAux_nil {α : Type} (B fuel : Nat) :
    chunksOfAux fuel B ([] : List α) = [] := by
  cases fuel <;> rfl

theorem chunksOfAux_fuel {α : Type} (B : Nat) (hB : 1 ≤ B) :
    ∀ (n : Nat) (l : List α), l.length ≤ n →
      ∀ fuel, l.length ≤ fuel → chunksOfAux fuel B l = chunksOfAux l.length B l := by
  intro n
  induction n with
  | zero =>
      intro l hl fuel hfuel
      have : l = [] := List.eq_nil_of_length_eq_zero (by omega)
      subst this; rw [chunksOfAux_nil, chunksOfAux_nil]
  | succ n ihn =>
      intro l hl fuel hfuel
      match l with
      | [] => rw [chunksOfAux_nil, chunksOfAux_nil]
      | x :: xs =>
          match fuel, hfuel with
          | m + 1, hfuel =>
              simp only [List.length_cons] at hl hfuel
              have hlen : ((x :: xs).drop B).length = xs.length + 1 - B := by
                simp only [List.length_drop, List.length_cons]
              have hd : ((x :: xs).drop B).length ≤ n := by omega
              have hdm : ((x :: xs).drop B).length ≤ m := by omega
              have hdx : ((x :: xs).drop B).length ≤ xs.length := by omega
              simp only [List.length_cons, chunksOfAux]
              rw [ihn _ hd _ hdm, ihn _ hd _ hdx]

theorem chunksOf_nil {α : Type} (B : Nat) : chunksOf B ([] : List α) = [] := rfl

theorem chunksOf_cons {α : Type} (B : Nat) (hB : 1 ≤ B) (l : List α) (hl : l ≠ []) :
    chunksOf B l = l.take B :: chunksOf B (l.drop B) := by
  match l with
  | x :: xs =>
      have hlen : ((x :: xs).drop B).length = xs.length + 1 - B := by
        simp only [List.length_drop, List.length_cons]
      show chunksOfAux (xs.length + 1) B (x :: xs) = _
      simp only [chunksOfAux]
      rw [chunksOfAux_fuel B hB ((x :: xs).drop B).length ((x :: xs).drop B)
        (by omega) xs.length (by omega)]
      rfl

theorem chunksOf_join {α : Type} (B : Nat) (hB : 1 ≤ B) :
    ∀ (n : Nat) (l : List α), l.length ≤ n → (chunksOf B l).flatten = l := by
  intro n
  induction n with
  | zero =>
      intro l hl
      have : l = [] := List.eq_nil_of_length_eq_zero (by omega)
      subst this; simp [chunksOf_nil]
  | succ n ihn =>
      intro l hl
      by_cases h0 : l = []
      · subst h0; simp [chunksOf_nil]
      · rw [chunksOf_cons B hB l h0]
        have : (l.drop B).length ≤ n := by
          simp only [List.length_drop]
          have : 1 ≤ l.length := List.length_pos.mpr h0
          omega
        simp only [List.flatten_cons, ihn _ this, List.take_append_drop]

/-- The storage operations of one whole chunk with index `i` holding the
records `chunk`: open, one write per record, seal. -/
def gbSeg (env : GBEnv ρ σ ε) (i : Nat) (chunk : List ρ) : List FsOp :=
  FsOp.openW (gbName env i) ::
    (chunk.map (fun r => FsOp.writeB (gbName env i) (gbLine env r)) ++ gbSealOps env i)

/-- The storage operations of consecutive chunks starting at index `i`. -/
def gbSegsFrom (env : GBEnv ρ σ ε) : Nat → List (List ρ) → List FsOp
  | _, [] => []
  | i, c :: cs => gbSeg env i c ++ gbSegsFrom env (i + 1) cs

/-- The manifest entries of consecutive chunks starting at index `i`. -/
def gbEntriesFrom (env : GBEnv ρ σ ε) : Nat → List (List ρ) → List (ε × List String)
  | _, [] => []
  | i, _ :: cs => gbEntry env i :: gbEntriesFrom env (i + 1) cs

/-- Record loop plus end-of-input finalization, started at chunk index
`k`: the storage operations performed and manifest entries emitted. -/
def gbRunFrom (env : GBEnv ρ σ ε) (k : Nat) (l : List ρ) :
    List FsOp × List (ε × List String) :=
  let o := gbSpec env k 0 l
  if 0 < o.c then (o.t ++ gbSealOps env o.k, o.y ++ [gbEntry env o.k])
  else (o.t, o.y)

theorem gbSpec_under_pos (env : GBEnv ρ σ ε) :
    ∀ (l : List ρ) (k c : Nat), 1 ≤ c → c + l.length < env.batch_size →
      gbSpec env k c l =
        ⟨k, c + l.length,
         l.map (fun r => FsOp.writeB (gbName env k) (gbLine env r)), []⟩ := by
  intro l
  induction l with
  | nil => intro k c _ _; simp [gbSpec]
  | cons r rs ih =>
      intro k c hc hlen
      simp only [List.length_cons] at hlen
      have hBc : ¬env.batch_size ≤ c + 1 := by omega
      rw [gbSpec_cons, if_neg hBc,
        ih k (c + 1) (by omega) (by omega)]
      have hc0 : ¬c = 0 := by omega
      simp only [hc0, if_false, List.nil_append, List.map_cons, List.length_cons,
        GBOut.mk.injEq, true_and, and_true]
      omega

theorem gbSpec_under_zero (env : GBEnv ρ σ ε) (l : List ρ) (k : Nat)
    (hne : l ≠ []) (hlen : l.length < env.batch_size) :
    gbSpec env k 0 l =
      ⟨k, l.length,
       FsOp.openW (gbName env k) ::
         l.map (fun r => FsOp.writeB (gbName env k) (gbLine env r)), []⟩ := by
  match l with
  | r :: rs =>
      simp only [List.length_cons] at hlen
      have hBc : ¬env.batch_size ≤ 0 + 1 := by omega
      rw [gbSpec_cons, if_neg hBc, gbSpec_under_pos env rs k 1 (by omega) (by omega)]
      simp [List.length_cons]
      omega

theorem gbSpec_fill (env : GBEnv ρ σ ε) (_hB : 1 ≤ env.batch_size) :
    ∀ (l : List ρ) (k c : Nat), c < env.batch_size → env.batch_size ≤ c + l.length →
      gbSpec env k c l =
        ⟨(gbSpec env (k + 1) 0 (l.drop (env.batch_size - c))).k,
         (gbSpec env (k + 1) 0 (l.drop (env.batch_size - c))).c,
         (if c = 0 then [FsOp.openW (gbName env k)] else []) ++
           ((l.take (env.batch_size - c)).map
             (fun r => FsOp.writeB (gbName env k) (gbLine env r)) ++
           (gbSealOps env k ++ (gbSpec env (k + 1) 0 (l.drop (env.batch_size - c))).t)),
         gbEntry env k :: (gbSpec env (k + 1) 0 (l.drop (env.batch_size - c))).y⟩ := by
  intro l
  induction l with
  | nil =>
      intro k c hc hfill
      simp only [List.length] at hfill
      omega
  | cons r rs ih =>
      intro k c hc hfill
      simp only [List.length_cons] at hfill
      by_cases hBc : env.batch_size ≤ c + 1
      · have h1 : env.batch_size - c = 1 := by omega
        rw [gbSpec_cons, if_pos hBc, h1]
        simp [List.take_succ_cons, List.drop_succ_cons]
      · have h1 : env.batch_size - c = (env.batch_size - (c + 1)) + 1 := by omega
        rw [gbSpec_cons, if_neg hBc, ih k (c + 1) (by omega) (by omega), h1]
        have hc1 : ¬c + 1 = 0 := by omega
        simp only [hc1, if_false, List.nil_append, List.take_succ_cons,
          List.drop_succ_cons, List.map_cons, List.cons_append, List.append_assoc]

theorem gbRunFrom_decomp (env : GBEnv ρ σ ε) (hB : 1 ≤ env.batch_size) :
    ∀ (n : Nat) (l : List ρ), l.length ≤ n → ∀ k,
      gbRunFrom env k l =
        (gbSegsFrom env k (chunksOf env.batch_size l),
         gbEntriesFrom env k (chunksOf env.batch_size l)) := by
  intro n
  induction n with
  | zero =>
      intro l hl k
      have : l = [] := List.eq_nil_of_length_eq_zero (by omega)
      subst this
      simp [gbRunFrom, gbSpec, chunksOf_nil, gbSegsFrom, gbEntriesFrom]
  | succ n ihn =>
      intro l hl k
      by_cases h0 : l = []
      · subst h0
        simp [gbRunFrom, gbSpec, chunksOf_nil, gbSegsFrom, gbEntriesFrom]
      · rw [chunksOf_cons env.batch_size hB l h0]
        by_cases hsmall : l.length < env.batch_size
        · have htake : l.take env.batch_size = l := List.take_of_length_le (by omega)
          have hdrop : l.drop env.batch_size = [] := List.drop_eq_nil_of_le (by omega)
          rw [htake, hdrop, chunksOf_nil]
          have hpos : 0 < l.length := List.length_pos.mpr h0
          unfold gbRunFrom
          rw [gbSpec_under_zero env l k h0 hsmall]
          simp only [hpos, if_pos, reduceIte, gbSegsFrom, gbEntriesFrom, gbSeg]
          simp [List.append_assoc]
        · have hfill : env.batch_size ≤ 0 + l.length := by omega
          have hdlen : (l.drop env.batch_size).length ≤ n := by
            simp only [List.length_drop]
            have : 0 < l.length := List.length_pos.mpr h0
            omega
          have hrec := ihn (l.drop env.batch_size) hdlen (k + 1)
          unfold gbRunFrom at hrec ⊢
          rw [gbSpec_fill env hB l k 0 (by omega) hfill]
          simp only [Nat.sub_zero]
          by_cases hc : 0 < (gbSpec env (k + 1) 0 (l.drop env.batch_size)).c
          · rw [if_pos hc] at hrec ⊢
            simp only [gbSegsFrom, gbEntriesFrom, gbSeg, Prod.mk.injEq] at hrec ⊢
            constructor
            · rw [← hrec.1]
              simp [List.append_assoc]
            · rw [← hrec.2, List.cons_append]
          · rw [if_neg hc] at hrec ⊢
            simp only [gbSegsFrom, gbEntriesFrom, gbSeg, Prod.mk.injEq] at hrec ⊢
            constructor
            · rw [← hrec.1]
              simp [List.append_assoc]
            · rw [← hrec.2]

theorem gbFinal_runFrom (env : GBEnv ρ σ ε) (l : List ρ) :
    (gbFinal env l).trace = FsOp.acquire :: ((gbRunFrom env 1 l).1 ++ [FsOp.release])
    ∧ (gbFinal env l).yields = (gbRunFrom env 1 l).2 := by
  simp only [gbFinal, gbRunFrom]
  by_cases hc : 0 < (gbSpec env 1 0 l).c
  · rw [if_pos hc, if_pos hc]
    constructor <;> simp [gbStateOf, List.append_assoc]
  · rw [if_neg hc, if_neg hc]
    constructor <;> simp [gbStateOf]

theorem gbEntriesFrom_length (env : GBEnv ρ σ ε) :
    ∀ (cs : List (List ρ)) (k : Nat), (gbEntriesFrom env k cs).length = cs.length := by
  intro cs
  induction cs with
  | nil => intro k; rfl
  | cons c cs ih => intro k; simp [gbEntriesFrom, ih]

theorem gbEntriesFrom_getD (env : GBEnv ρ σ ε) :
    ∀ (cs : List (List ρ)) (k j : Nat), j < cs.length →
      (gbEntriesFrom env k cs).getD j (env.encoding, []) = gbEntry env (k + j) := by
  intro cs
  induction cs with
  | nil => intro k j hj; simp at hj
  | cons c cs ih =>
      intro k j hj
      match j with
      | 0 => simp [gbEntriesFrom]
      | j + 1 =>
          have hj2 : j < cs.length := by simp at hj; omega
          have harith : k + 1 + j = k + (j + 1) := by omega
          simp only [gbEntriesFrom, List.getD_cons_succ, ih (k + 1) j hj2, harith]

/-- The payload of a storage write operation. -/
def writeData : FsOp → Option (List Char)
  | .writeB _ d => some d
  | _ => Option.none

theorem gbSegsFrom_writes (env : GBEnv ρ σ ε) :
    ∀ (cs : List (List ρ)) (k : Nat),
      (gbSegsFrom env k cs).filterMap writeData = cs.flatten.map (gbLine env) := by
  intro cs
  induction cs with
  | nil => intro k; rfl
  | cons c cs ih =>
      intro k
      have hfm : ∀ (d : List ρ),
          List.filterMap (fun r => some (gbLine env r)) d = List.map (gbLine env) d := by
        intro d
        induction d with
        | nil => rfl
        | cons x xs ihd => simp [List.filterMap_cons, ihd]
      simp only [gbSegsFrom, gbSeg, gbSealOps, List.filterMap_append, List.flatten_cons,
        List.map_append, List.filterMap_cons, writeData, ih, List.filterMap_map,
        List.filterMap_nil, List.append_nil]
      rw [show (writeData ∘ fun r => FsOp.writeB (gbName env k) (gbLine env r)) =
        (fun r => some (gbLine env r)) from rfl, hfm]

theorem chunksOf_length {α : Type} (B : Nat) (hB : 1 ≤ B) :
    ∀ (n : Nat) (l : List α), l.length ≤ n →
      (chunksOf B l).length = (l.length + B - 1) / B := by
  intro n
  induction n with
  | zero =>
      intro l hl
      have h0 : l = [] := List.eq_nil_of_length_eq_zero (by omega)
      subst h0
      simp only [chunksOf_nil, List.length_nil]
      exact (Nat.div_eq_of_lt (by omega)).symm
  | succ n ihn =>
      intro l hl
      by_cases h0 : l = []
      · subst h0
        simp only [chunksOf_nil, List.length_nil]
        exact (Nat.div_eq_of_lt (by omega)).symm
      · have hpos : 0 < l.length := List.length_pos.mpr h0
        rw [chunksOf_cons B hB l h0]
        have hdl : (l.drop B).length = l.length - B := by simp [List.length_drop]
        have hdn : (l.drop B).length ≤ n := by omega
        rw [List.length_cons, ihn (l.drop B) hdn, hdl]
        by_cases hsmall : l.length ≤ B
        · have e1 : l.length - B = 0 := by omega
          rw [e1]
          rw [Nat.div_eq_of_lt (by omega : 0 + B - 1 < B)]
          have e4 : (l.length + B - 1) / B = 1 :=
            Nat.div_eq_of_lt_le (by omega) (by omega)
          omega
        · have e2 : l.length + B - 1 = (l.length - B + B - 1) + B := by omega
          rw [e2, Nat.add_div_right _ (by omega)]

theorem chunksOf_full_sizes {α : Type} (B : Nat) (hB : 1 ≤ B) :
    ∀ (n : Nat) (l : List α), l.length ≤ n →
      ∀ j, j + 1 < (chunksOf B l).length → ((chunksOf B l).getD j []).length = B := by
  intro n
  induction n with
  | zero =>
      intro l hl j hj
      have h0 : l = [] := List.eq_nil_of_length_eq_zero (by omega)
      subst h0
      simp [chunksOf_nil] at hj
  | succ n ihn =>
      intro l hl j hj
      by_cases h0 : l = []
      · subst h0; simp [chunksOf_nil] at hj
      · rw [chunksOf_cons B hB l h0] at hj ⊢
        match j with
        | 0 =>
            simp only [List.length_cons] at hj
            have hne : chunksOf B (l.drop B) ≠ [] := by
              intro hnil
              rw [hnil] at hj
              simp at hj
            have hdne : l.drop B ≠ [] := by
              intro hdnil
              rw [hdnil, chunksOf_nil] at hne
              exact hne rfl
            have hlong : B < l.length := by
              by_contra hle
              exact hdne (List.drop_eq_nil_of_le (by omega))
            simp [List.length_take]
            omega
        | j + 1 =>
            simp only [List.length_cons] at hj
            have hdn : (l.drop B).length ≤ n := by
              have hpos : 0 < l.length := List.length_pos.mpr h0
              simp only [List.length_drop]
              omega
            simp only [List.getD_cons_succ]
            exact ihn (l.drop B) hdn j (by omega)

theorem chunksOf_last {α : Type} (B : Nat) (hB : 1 ≤ B) :
    ∀ (n : Nat) (l : List α), l.length ≤ n → l ≠ [] →
      (chunksOf B l).getLast? = some (l.drop (B * ((l.length - 1) / B))) := by
  intro n
  induction n with
  | zero =>
      intro l hl h0
      exact absurd (List.eq_nil_of_length_eq_zero (by omega)) h0
  | succ n ihn =>
      intro l hl h0
      have hpos : 0 < l.length := List.length_pos.mpr h0
      rw [chunksOf_cons B hB l h0]
      by_cases hsmall : l.length ≤ B
      · have hdrop : l.drop B = [] := List.drop_eq_nil_of_le (by omega)
        rw [hdrop, chunksOf_nil]
        have e1 : (l.length - 1) / B = 0 := Nat.div_eq_of_lt (by omega)
        rw [e1, Nat.mul_zero, List.drop_zero, List.take_of_length_le (by omega)]
        rfl
      · have hdne : l.drop B ≠ [] := by
          intro hdnil
          have := congrArg List.length hdnil
          simp only [List.length_drop, List.length_nil] at this
          omega
        have hdn : (l.drop B).length ≤ n := by
          simp only [List.length_drop]; omega
        have hrec := ihn (l.drop B) hdn hdne
        obtain ⟨c0, cs0, hcc⟩ : ∃ c0 cs0, chunksOf B (l.drop B) = c0 :: cs0 := by
          match hx : chunksOf B (l.drop B) with
          | [] => rw [hx] at hrec; simp at hrec
          | c0 :: cs0 => exact ⟨c0, cs0, rfl⟩
        rw [hcc, List.getLast?_cons_cons, ← hcc, hrec]
        have hdl : (l.drop B).length = l.length - B := by simp [List.length_drop]
        rw [List.drop_drop, hdl]
        have e2 : B + B * ((l.length - B - 1) / B) = B * ((l.length - 1) / B) := by
          have e3 : l.length - 1 = (l.length - B - 1) + B := by omega
          rw [e3, Nat.add_div_right _ (by omega)]
          ring
        rw [e2]

theorem gbSpec_yields_single (env : GBEnv ρ σ ε) :
    ∀ (l : List ρ) (k c : Nat) (e : ε × List String),
      e ∈ (gbSpec env k c l).y → e.2.length = 1 := by
  intro l
  induction l with
  | nil => intro k c e he; simp [gbSpec] at he
  | cons r rs ih =>
      intro k c e he
      rw [gbSpec_cons] at he
      by_cases hBc : env.batch_size ≤ c + 1
      · rw [if_pos hBc] at he
        simp only [List.mem_cons] at he
        rcases he with he | he
        · subst he; rfl
        · exact ih (k + 1) 0 e he
      · rw [if_neg hBc] at he
        exact ih k (c + 1) e he

theorem get_batches_ok_state (env : GBEnv ρ σ ε) (l : List ρ) (s : GBState ε)
    (h : get_batches env l = .ok s) : s = gbFinal env l := by
  have h2 := get_batches_eq env l
  rw [h, Except.ok.injEq] at h2
  exact h2

/-- **C1.**  The claim states that every key of the record returned by
`conform_record_data_types_and_uuid` is a member of the schema's property
names, so that raw-record keys absent from the schema — including keys
holding UUID or Decimal values — never appear in the conformed record.
This matches the function's own docstring ("Any property names not found
in the schema catalog will be removed"), but the code violates it: the
UUID/Decimal post-pass iterates the *raw* record and assigns into the
conformed dict unconditionally, so an unmapped key holding a UUID is
re-added after generic conformance dropped it.  At the concrete failing
input below the output contains the unmapped key `"mystery"`. -/
theorem conform_unmapped_uuid_key_reappears :
    dictKeys (conform_record_data_types_and_uuid "stream1"
        [("a", PyVal.str "x"),
         ("mystery", PyVal.uuid "123e4567-e89b-12d3-a456-426614174000")]
        ["a"]) = ["a", "mystery"]
    ∧ ¬ ("mystery" ∈ (["a"] : List String))
    ∧ ¬ (∀ key ∈ dictKeys (conform_record_data_types_and_uuid "stream1"
          [("a", PyVal.str "x"),
           ("mystery", PyVal.uuid "123e4567-e89b-12d3-a456-426614174000")]
          ["a"]), key ∈ (["a"] : List String)) := by
  refine ⟨by decide, by decide, ?_⟩
  intro hall
  have := hall "mystery" (by decide)
  simp at this

/-- **C3 (counterexample).**  The claim states that in full-table mode
(no replication key declared) a configured `replication_key_value_start`
is always bound as the single named parameter.  At the concrete input
below — no replication key in the stream config, a configured start
value, and no context dictionary — the code executes the query with no
bound parameters: `rep_key = stream_config.get("replication_key",
context)` falls back to the absent context, the `if rep_key:` guard is
falsy, and `multiparams` stays empty. -/
theorem get_records_fulltable_no_binding_cex :
    get_records ⟨"SELECT x FROM t", Option.none, some "2020-01-01"⟩ Option.none Option.none
        = .ok ⟨"SELECT x FROM t", []⟩
    ∧ get_records ⟨"SELECT x FROM t", Option.none, some "2020-01-01"⟩ Option.none Option.none
        ≠ .ok ⟨"SELECT x FROM t", [("rep_key_val", "2020-01-01")]⟩ := by
  refine ⟨rfl, fun hcontra => ?_⟩
  rw [show get_records ⟨"SELECT x FROM t", Option.none, some "2020-01-01"⟩
      Option.none Option.none = (.ok ⟨"SELECT x FROM t", []⟩ : Except String QueryExec)
      from rfl, Except.ok.injEq] at hcontra
  exact absurd hcontra (by decide)

/-- **C3 (amended).**  In full-table replication mode (no replication key
declared), `get_records` binds the configured
`replication_key_value_start` as the single named parameter only when
the context dictionary — which the code substitutes for the missing
replication key — is truthy (present and non-empty); when the context is
absent or empty, the query executes with no bound parameters, regardless
of the configured start value. -/
theorem get_records_fulltable_context_binding (cfg : StreamConfig)
    (ctx : Option (List (String × String))) (sv : Option String)
    (hsql : ¬cfg.sql = "") (hfull : cfg.replication_key = Option.none) :
    (truthyCtx ctx = false → get_records cfg ctx sv = .ok ⟨cfg.sql, []⟩)
    ∧ (∀ v, truthyCtx ctx = true → cfg.replication_key_value_start = some v →
        get_records cfg ctx sv = .ok ⟨cfg.sql, [("rep_key_val", v)]⟩) := by
  constructor
  · intro hctx
    simp [get_records, hsql, replication_method, hfull, hctx]
  · intro v hctx hstart
    simp [get_records, hsql, replication_method, hfull, hctx, hstart]

theorem get_records_fulltable_context_binding_witness :
    (¬(⟨"SELECT 1", Option.none, some "2020"⟩ : StreamConfig).sql = "")
    ∧ ((⟨"SELECT 1", Option.none, some "2020"⟩ : StreamConfig).replication_key = Option.none)
    ∧ ((truthyCtx (Option.none) = false →
        get_records ⟨"SELECT 1", Option.none, some "2020"⟩ Option.none Option.none =
          .ok ⟨"SELECT 1", []⟩)
      ∧ (∀ v, truthyCtx (Option.none) = true →
          (⟨"SELECT 1", Option.none, some "2020"⟩ : StreamConfig).replication_key_value_start
            = some v →
          get_records ⟨"SELECT 1", Option.none, some "2020"⟩ Option.none Option.none =
            .ok ⟨"SELECT 1", [("rep_key_val", v)]⟩)) :=
  ⟨by decide, rfl,
    get_records_fulltable_context_binding ⟨"SELECT 1", Option.none, some "2020"⟩
      Option.none Option.none (by decide) rfl⟩

theorem replication_method_incremental_iff (cfg : StreamConfig) :
    replication_method cfg = "INCREMENTAL" ↔
      ∃ k, cfg.replication_key = some k ∧ truthyStr k = true := by
  rcases hrk : cfg.replication_key with _ | k
  · simp [replication_method, hrk]
  · cases ht : truthyStr k
    · simp [replication_method, hrk, ht]
    · simp [replication_method, hrk, ht]

/-- **C4.**  In incremental replication mode, `get_records` resolves the
starting value from the persisted state store first, from the configured
`replication_key_value_start` only as a fallback, and raises a
configuration error when neither yields a value.  The `QueryExec` value
is constructed exactly at the query-execution point of the code, so the
`.error` outcome in the third conjunct shows that no query execution was
attempted on the failure path (and no state was touched). -/
theorem get_records_incremental_resolution (cfg : StreamConfig)
    (ctx : Option (List (String × String))) (sv : Option String)
    (hsql : ¬cfg.sql = "") (hinc : replication_method cfg = "INCREMENTAL") :
    (∀ v, sv = some v →
        get_records cfg ctx sv = .ok ⟨cfg.sql, [("rep_key_val", v)]⟩)
    ∧ (∀ w, sv = Option.none → cfg.replication_key_value_start = some w →
        get_records cfg ctx sv = .ok ⟨cfg.sql, [("rep_key_val", w)]⟩)
    ∧ (sv = Option.none → cfg.replication_key_value_start = Option.none →
        get_records cfg ctx sv =
          .error "No value for replication key. INCREMENTAL sync not possible.") := by
  obtain ⟨k, hk, htruthy⟩ : ∃ k, cfg.replication_key = some k ∧ truthyStr k = true :=
    (replication_method_incremental_iff cfg).mp hinc
  refine ⟨?_, ?_, ?_⟩
  · intro v hv
    subst hv
    simp [get_records, hsql, replication_method, hk, htruthy]
  · intro w hv hw
    subst hv
    simp [get_records, hsql, replication_method, hk, htruthy, hw]
  · intro hv hw
    subst hv
    simp [get_records, hsql, replication_method, hk, htruthy, hw]

theorem get_records_incremental_resolution_witness :
    (¬(⟨"SELECT 1", some "id", some "5"⟩ : StreamConfig).sql = "")
    ∧ (replication_method ⟨"SELECT 1", some "id", some "5"⟩ = "INCREMENTAL")
    ∧ ((∀ v, (some "9" : Option String) = some v →
          get_records ⟨"SELECT 1", some "id", some "5"⟩ Option.none (some "9") =
            .ok ⟨"SELECT 1", [("rep_key_val", v)]⟩)
      ∧ (∀ w, (some "9" : Option String) = Option.none →
          (⟨"SELECT 1", some "id", some "5"⟩ : StreamConfig).replication_key_value_start
            = some w →
          get_records ⟨"SELECT 1", some "id", some "5"⟩ Option.none (some "9") =
            .ok ⟨"SELECT 1", [("rep_key_val", w)]⟩)
      ∧ ((some "9" : Option String) = Option.none →
          (⟨"SELECT 1", some "id", some "5"⟩ : StreamConfig).replication_key_value_start
            = Option.none →
          get_records ⟨"SELECT 1", some "id", some "5"⟩ Option.none (some "9") =
            .error "No value for replication key. INCREMENTAL sync not possible.")) :=
  ⟨by decide, by decide,
    get_records_incremental_resolution ⟨"SELECT 1", some "id", some "5"⟩
      Option.none (some "9") (by decide) (by decide)⟩

/-- The open-handle invariant of the batch generator: whenever records
have been written into the current chunk, the file handle, gzip stream,
and filename are all set. -/
def gbInv (s : GBState ε) : Prop :=
  0 < s.chunk_size →
    s.f ≠ Option.none ∧ s.gz ≠ Option.none ∧ s.filename ≠ Option.none

/-- **C10.**  With zero records, `get_batches` performs no storage writes
at all: no file is opened, no file name is generated (the `filename`
variable stays `None`), no bytes are written, and the storage trace is
exactly the acquisition and release of the filesystem handle; no
manifest entry is yielded. -/
theorem get_batches_empty_input_no_writes (env : GBEnv ρ σ ε) :
    get_batches env ([] : List ρ) =
      .ok { i := 1, chunk_size := 0, filename := Option.none, f := Option.none,
            gz := Option.none, trace := [FsOp.acquire, FsOp.release], yields := [] } := rfl

/-- **C9.**  Every manifest entry emitted by `get_batches` pairs the
encoding descriptor with a file-location list of length exactly one. -/
theorem manifest_entries_single_location (env : GBEnv ρ σ ε) (l : List ρ)
    (s : GBState ε) (h : get_batches env l = .ok s) :
    ∀ e ∈ s.yields, e.2.length = 1 := by
  obtain rfl := get_batches_ok_state env l s h
  intro e he
  simp only [gbFinal] at he
  by_cases hc : 0 < (gbSpec env 1 0 l).c
  · rw [if_pos hc] at he
    simp only [gbStateOf, List.mem_append, List.mem_singleton] at he
    rcases he with he | he
    · exact gbSpec_yields_single env l 1 0 e he
    · subst he; rfl
  · rw [if_neg hc] at he
    simp only [gbStateOf] at he
    exact gbSpec_yields_single env l 1 0 e he

/-- **C5.**  (1) the open-handle invariant holds initially; (2) it is
re-established by every loop iteration, so it holds at every loop
boundary; (3) consequently `get_batches` never raises — in particular the
end-of-input `ValueError` branches are unreachable; (4) if the
inconsistent state (records counted but some handle `None`) were ever
reached, finalization raises a fatal error instead of emitting a
manifest entry. -/
theorem get_batches_consistency_invariant (env : GBEnv ρ σ ε) :
    gbInv (gbInit : GBState ε)
    ∧ (∀ (s s' : GBState ε) (r : ρ), gbStep env s r = .ok s' → gbInv s')
    ∧ (∀ l : List ρ, ∃ s, get_batches env l = .ok s)
    ∧ (∀ s : GBState ε, 0 < s.chunk_size →
        (s.gz = Option.none ∨ s.f = Option.none ∨ s.filename = Option.none) →
        ∃ m, gbFinalize env s = .error m) := by
  refine ⟨?_, ?_, ?_, ?_⟩
  · intro hpos
    simp [gbInit] at hpos
  · intro s s' r hstep
    obtain ⟨i, c, fn, ff, gg, tr, ys⟩ := s
    rcases fn with _ | fn <;> rcases ff with _ | ff <;> rcases gg with _ | gg <;>
      by_cases hB : env.batch_size ≤ c + 1 <;>
      simp [gbStep, hB] at hstep <;>
      subst hstep <;>
      simp [gbInv]
  · intro l
    exact ⟨gbFinal env l, get_batches_eq env l⟩
  · intro s hchunk hdisj
    rcases hgz : s.gz with _ | g
    · exact ⟨"\x27gz\x27 was None but shouldn\x27t have been",
        by simp [gbFinalize, hchunk, hgz]⟩
    · rcases hf : s.f with _ | f2
      · exact ⟨"\x27f\x27 was None but shouldn\x27t have been",
          by simp [gbFinalize, hchunk, hgz, hf]⟩
      · rcases hfn : s.filename with _ | fn2
        · exact ⟨"\x27filename\x27 was None but shouldn\x27t have been",
            by simp [gbFinalize, hchunk, hgz, hf, hfn]⟩
        · exfalso
          rcases hdisj with hd | hd | hd <;> simp_all

/-- **C2.**  For `N` input records and batch size `B ≥ 1`: the manifest
entries are exactly one per chunk of the input split into consecutive
`B`-sized chunks; their number is `(N + B - 1) / B` — that is,
`ceil(N / B)`, which is `0` when `N = 0`; every chunk except possibly the
last holds exactly `B` records; and the last chunk (when `N > 0`) is
`l.drop (B * ((N - 1) / B))`, of size `N - B * ((N - 1) / B)`, a value
between `1` and `B`. -/
theorem get_batches_chunk_counts (env : GBEnv ρ σ ε) (l : List ρ)
    (hB : 1 ≤ env.batch_size) (s : GBState ε) (h : get_batches env l = .ok s) :
    s.yields = gbEntriesFrom env 1 (chunksOf env.batch_size l)
    ∧ s.yields.length = (l.length + env.batch_size - 1) / env.batch_size
    ∧ (l.length = 0 → s.yields.length = 0)
    ∧ (∀ j, j + 1 < (chunksOf env.batch_size l).length →
        ((chunksOf env.batch_size l).getD j []).length = env.batch_size)
    ∧ (0 < l.length →
        (chunksOf env.batch_size l).getLast? =
          some (l.drop (env.batch_size * ((l.length - 1) / env.batch_size)))
        ∧ (l.drop (env.batch_size * ((l.length - 1) / env.batch_size))).length
            = l.length - env.batch_size * ((l.length - 1) / env.batch_size)
        ∧ 1 ≤ (l.drop (env.batch_size * ((l.length - 1) / env.batch_size))).length
        ∧ (l.drop (env.batch_size * ((l.length - 1) / env.batch_size))).length
            ≤ env.batch_size) := by
  obtain rfl := get_batches_ok_state env l s h
  have hyld : (gbFinal env l).yields =
      gbEntriesFrom env 1 (chunksOf env.batch_size l) := by
    rw [(gbFinal_runFrom env l).2, gbRunFrom_decomp env hB l.length l le_rfl 1]
  refine ⟨hyld, ?_, ?_, chunksOf_full_sizes env.batch_size hB l.length l le_rfl, ?_⟩
  · rw [hyld, gbEntriesFrom_length, chunksOf_length env.batch_size hB l.length l le_rfl]
  · intro h0
    rw [hyld, gbEntriesFrom_length, chunksOf_length env.batch_size hB l.length l le_rfl,
      h0]
    exact Nat.div_eq_of_lt (by omega)
  · intro hpos
    have hne : l ≠ [] := by
      intro h0
      rw [h0] at hpos
      simp at hpos
    have e := Nat.div_add_mod (l.length - 1) env.batch_size
    have hm : (l.length - 1) % env.batch_size < env.batch_size :=
      Nat.mod_lt _ (by omega)
    refine ⟨chunksOf_last env.batch_size hB l.length l le_rfl hne, ?_, ?_, ?_⟩
    · simp [List.length_drop]
    · simp only [List.length_drop]
      omega
    · simp only [List.length_drop]
      omega

/-- **C6.**  The `k`-th manifest entry (1-based `k = j + 1`) refers to
the file named exactly `<prefix><sync_id>-<k>.json.gz`, where the prefix
is the storage-configured prefix (empty when unset) and the sync id is
`<tap_name>--<stream_name>-<run token>`; the chunk index starts at 1 and
increases by exactly 1 per sealed chunk, in emission order. -/
theorem get_batches_chunk_file_names (env : GBEnv ρ σ ε) (l : List ρ)
    (hB : 1 ≤ env.batch_size) (s : GBState ε) (h : get_batches env l = .ok s)
    (j : Nat) (hj : j < s.yields.length) :
    s.yields.getD j (env.encoding, []) =
      (env.encoding,
        [env.geturl (env.storagePfx.getD "" ++
          (env.tap_name ++ "--" ++ env.stream_name ++ "-" ++ env.uuidToken) ++
          "-" ++ Nat.repr (j + 1) ++ ".json.gz")]) := by
  obtain rfl := get_batches_ok_state env l s h
  have hyld : (gbFinal env l).yields =
      gbEntriesFrom env 1 (chunksOf env.batch_size l) := by
    rw [(gbFinal_runFrom env l).2, gbRunFrom_decomp env hB l.length l le_rfl 1]
  rw [hyld] at hj ⊢
  have hj2 : j < (chunksOf env.batch_size l).length := by
    rwa [gbEntriesFrom_length] at hj
  rw [gbEntriesFrom_getD env _ 1 j hj2]
  have harith : 1 + j = j + 1 := by omega
  rw [harith]
  rfl

/-- **C7.**  The storage trace decomposes into per-chunk segments in
increasing chunk-index order; extracting the written record lines from
the trace, in order, yields exactly the serialized conformed input
records in their source emission order (no reorder, drop, or
duplication), and the chunks concatenate back to the full input. -/
theorem get_batches_preserves_record_order (env : GBEnv ρ σ ε) (l : List ρ)
    (hB : 1 ≤ env.batch_size) (s : GBState ε) (h : get_batches env l = .ok s) :
    s.trace = FsOp.acquire ::
        (gbSegsFrom env 1 (chunksOf env.batch_size l) ++ [FsOp.release])
    ∧ s.trace.filterMap writeData =
        l.map (fun r => env.dumps (env.conform r) ++ [Char.ofNat 10])
    ∧ (chunksOf env.batch_size l).flatten = l := by
  obtain rfl := get_batches_ok_state env l s h
  have hflat := chunksOf_join env.batch_size hB l.length l le_rfl
  have htr : (gbFinal env l).trace = FsOp.acquire ::
      (gbSegsFrom env 1 (chunksOf env.batch_size l) ++ [FsOp.release]) := by
    rw [(gbFinal_runFrom env l).1, gbRunFrom_decomp env hB l.length l le_rfl 1]
  refine ⟨htr, ?_, hflat⟩
  rw [htr]
  simp only [List.filterMap_cons, writeData, List.filterMap_append,
    gbSegsFrom_writes, hflat]
  simp [writeData, gbLine]

/-- A concrete environment used to witness the batch-chunker theorems. -/
def wEnv : GBEnv Nat Nat Nat :=
  ⟨2, "tap-rawmysql", "db-stream", "runtoken", Option.none, fun n => n, 7,
   fun r => r + 1, fun _ => [Char.ofNat 114]⟩

/-- A concrete record list used to witness the batch-chunker theorems. -/
def wl : List Nat := [10, 20, 30]

theorem manifest_entries_single_location_witness :
    get_batches wEnv wl = .ok (gbFinal wEnv wl)
    ∧ (∀ e ∈ (gbFinal wEnv wl).yields, e.2.length = 1) :=
  ⟨get_batches_eq wEnv wl,
    manifest_entries_single_location wEnv wl (gbFinal wEnv wl) (get_batches_eq wEnv wl)⟩

theorem get_batches_chunk_counts_witness :
    1 ≤ wEnv.batch_size
    ∧ get_batches wEnv wl = .ok (gbFinal wEnv wl)
    ∧ ((gbFinal wEnv wl).yields = gbEntriesFrom wEnv 1 (chunksOf wEnv.batch_size wl)
      ∧ (gbFinal wEnv wl).yields.length =
          (wl.length + wEnv.batch_size - 1) / wEnv.batch_size
      ∧ (wl.length = 0 → (gbFinal wEnv wl).yields.length = 0)
      ∧ (∀ j, j + 1 < (chunksOf wEnv.batch_size wl).length →
          ((chunksOf wEnv.batch_size wl).getD j []).length = wEnv.batch_size)
      ∧ (0 < wl.length →
          (chunksOf wEnv.batch_size wl).getLast? =
            some (wl.drop (wEnv.batch_size * ((wl.length - 1) / wEnv.batch_size)))
          ∧ (wl.drop (wEnv.batch_size * ((wl.length - 1) / wEnv.batch_size))).length
              = wl.length - wEnv.batch_size * ((wl.length - 1) / wEnv.batch_size)
          ∧ 1 ≤ (wl.drop (wEnv.batch_size * ((wl.length - 1) / wEnv.batch_size))).length
          ∧ (wl.drop (wEnv.batch_size * ((wl.length - 1) / wEnv.batch_size))).length
              ≤ wEnv.batch_size)) :=
  ⟨by decide, get_batches_eq wEnv wl,
    get_batches_chunk_counts wEnv wl (by decide) (gbFinal wEnv wl)
      (get_batches_eq wEnv wl)⟩

theorem get_batches_chunk_file_names_witness :
    1 ≤ wEnv.batch_size
    ∧ get_batches wEnv wl = .ok (gbFinal wEnv wl)
    ∧ 0 < (gbFinal wEnv wl).yields.length
    ∧ (gbFinal wEnv wl).yields.getD 0 (wEnv.encoding, []) =
        (wEnv.encoding,
          [wEnv.geturl (wEnv.storagePfx.getD "" ++
            (wEnv.tap_name ++ "--" ++ wEnv.stream_name ++ "-" ++ wEnv.uuidToken) ++
            "-" ++ Nat.repr (0 + 1) ++ ".json.gz")]) :=
  ⟨by decide, get_batches_eq wEnv wl, by decide,
    get_batches_chunk_file_names wEnv wl (by decide) (gbFinal wEnv wl)
      (get_batches_eq wEnv wl) 0 (by decide)⟩

theorem get_batches_preserves_record_order_witness :
    1 ≤ wEnv.batch_size
    ∧ get_batches wEnv wl = .ok (gbFinal wEnv wl)
    ∧ ((gbFinal wEnv wl).trace = FsOp.acquire ::
          (gbSegsFrom wEnv 1 (chunksOf wEnv.batch_size wl) ++ [FsOp.release])
      ∧ (gbFinal wEnv wl).trace.filterMap writeData =
          wl.map (fun r => wEnv.dumps (wEnv.conform r) ++ [Char.ofNat 10])
      ∧ (chunksOf wEnv.batch_size wl).flatten = wl) :=
  ⟨by decide, get_batches_eq wEnv wl,
    get_batches_preserves_record_order wEnv wl (by decide) (gbFinal wEnv wl)
      (get_batches_eq wEnv wl)⟩

/-- The state reached after feeding one record from the initial state of
`wEnv`; used by the invariant witness. -/
def wStep1 : GBState Nat :=
  ⟨1, 1, some (gbName wEnv 1), some (gbName wEnv 1), some (gbName wEnv 1),
   [FsOp.openW (gbName wEnv 1), FsOp.writeB (gbName wEnv 1) (gbLine wEnv 5)], []⟩

/-- An inconsistent state (records counted but all handles `None`); used
by the invariant witness. -/
def wBad : GBState Nat :=
  ⟨1, 3, Option.none, Option.none, Option.none, [], []⟩

theorem get_batches_consistency_invariant_witness :
    gbInv (gbInit : GBState Nat)
    ∧ gbStep wEnv ⟨1, 0, Option.none, Option.none, Option.none, [], []⟩ 5 = .ok wStep1
    ∧ gbInv wStep1
    ∧ (∃ s, get_batches wEnv wl = .ok s)
    ∧ 0 < wBad.chunk_size
    ∧ (wBad.gz = Option.none ∨ wBad.f = Option.none ∨ wBad.filename = Option.none)
    ∧ (∃ m, gbFinalize wEnv wBad = .error m) :=
  ⟨(get_batches_consistency_invariant wEnv).1,
   rfl,
   (get_batches_consistency_invariant wEnv).2.1
     ⟨1, 0, Option.none, Option.none, Option.none, [], []⟩ wStep1 5 rfl,
   (get_batches_consistency_invariant wEnv).2.2.1 wl,
   by decide,
   Or.inl rfl,
   (get_batches_consistency_invariant wEnv).2.2.2 wBad (by decide) (Or.inl rfl)⟩

/-- The left brace character, written by its code point. -/
def lbrace : Char := Char.ofNat 123

/-- The right brace character, written by its code point. -/
def rbrace : Char := Char.ofNat 125

/-- Modelled from the spec: JSON values as serialized into the batch
files ("one JSON object per line").  `num` is an integer; `dec` is a
non-integer number — the floating-point value a fixed-point decimal is
converted to (spec 4.2) — carried as a decimal mantissa `m` with
`s + 1` fraction digits, denoting `m / 10 ^ (s + 1)`; strings are
character lists. -/
inductive JVal where
  | null
  | bool (b : Bool)
  | num (n : Int)
  | dec (m : Int) (s : Nat)
  | str (s : List Char)
  | arr (elems : List JVal)
  | obj (fields : List (List Char × JVal))
deriving Repr

/-- The lower-case hexadecimal digit for `n < 16`. -/
def hexDigit (n : Nat) : Char :=
  Char.ofNat (if n < 10 then 48 + n else 87 + n)

/-- The decimal digit character for `d < 10`. -/
def digitChar (d : Nat) : Char := Char.ofNat (48 + d)

/-- Modelled from the spec: the JSON string escaping of `json.dumps` —
quote, backslash and the common control characters get two-character
escapes, other control characters get a `\u00XX` escape, anything else
is emitted verbatim. -/
def escChar (c : Char) : List Char :=
  if c = '"' then ['\\', '"']
  else if c = '\\' then ['\\', '\\']
  else if c = '\n' then ['\\', 'n']
  else if c = '\t' then ['\\', 't']
  else if c = '\r' then ['\\', 'r']
  else if c.toNat < 32 then
    ['\\', 'u', '0', '0', hexDigit (c.toNat / 16), hexDigit (c.toNat % 16)]
  else [c]

/-- A JSON string literal: quote, escaped characters, quote. -/
def printStr (s : List Char) : List Char :=
  '"' :: ((s.map escChar).flatten ++ ['"'])

/-- The decimal digits of a natural number. -/
def natChars (n : Nat) : List Char :=
  if _h : n < 10 then [digitChar n]
  else natChars (n / 10) ++ [digitChar (n % 10)]
termination_by n
decreasing_by exact Nat.div_lt_self (by omega) (by omega)

/-- The decimal rendering of an integer. -/
def intChars (n : Int) : List Char :=
  if n < 0 then '-' :: natChars n.natAbs else natChars n.natAbs

/-- Exactly `k` decimal digits of `n mod 10 ^ k`, zero-padded, most
significant first. -/
def padChars : Nat → Nat → List Char
  | 0, _ => []
  | k + 1, n => padChars k (n / 10) ++ [digitChar (n % 10)]

/-- The rendering of a non-integer JSON number: sign, integer part, dot,
then exactly `s + 1` fraction digits of the mantissa `m`. -/
def decChars (m : Int) (s : Nat) : List Char :=
  (if m < 0 then ['-'] else []) ++
    (natChars (m.natAbs / 10 ^ (s + 1)) ++
      ('.' :: padChars (s + 1) (m.natAbs % 10 ^ (s + 1))))

/-- The keyword spelled for a JSON null. -/
@[simp] def litNull : List Char := ['n', 'u', 'l', 'l']

/-- The keyword spelled for a JSON true. -/
@[simp] def litTrue : List Char := ['t', 'r', 'u', 'e']

/-- The keyword spelled for a JSON false. -/
@[simp] def litFalse : List Char := ['f', 'a', 'l', 's', 'e']

mutual

/-- Modelled from the spec: the JSON serialization of `json.dumps` with
its default separators `", "` and `": "`. -/
def printVal : JVal → List Char
  | .null => litNull
  | .bool true => litTrue
  | .bool false => litFalse
  | .num n => intChars n
  | .dec m s => decChars m s
  | .str s => printStr s
  | .arr xs => '[' :: (printElems xs ++ [']'])
  | .obj fs => lbrace :: (printFields fs ++ [rbrace])

/-- Array elements joined by `", "`. -/
def printElems : List JVal → List Char
  | [] => []
  | [x] => printVal x
  | x :: y :: rest => printVal x ++ (',' :: ' ' :: printElems (y :: rest))

/-- Object members `"key": value` joined by `", "`. -/
def printFields : List (List Char × JVal) → List Char
  | [] => []
  | [kv] => printStr kv.1 ++ (':' :: ' ' :: printVal kv.2)
  | kv :: kv2 :: rest =>
      printStr kv.1 ++ (':' :: ' ' :: printVal kv.2) ++
        (',' :: ' ' :: printFields (kv2 :: rest))

end

/-- Whitespace as recognized by a JSON parser. -/
def isWs (c : Char) : Bool := c = ' ' || c = '\n' || c = '\t' || c = '\r'

/-- The value of one hexadecimal digit. -/
def hexVal (c : Char) : Option Nat :=
  if 48 ≤ c.toNat ∧ c.toNat ≤ 57 then some (c.toNat - 48)
  else if 97 ≤ c.toNat ∧ c.toNat ≤ 102 then some (c.toNat - 87)
  else if 65 ≤ c.toNat ∧ c.toNat ≤ 70 then some (c.toNat - 55)
  else Option.none

/-- Prepend a character to the string being parsed. -/
def consStr (c : Char) : Option (List Char × List Char) → Option (List Char × List Char)
  | some p => some (c :: p.1, p.2)
  | Option.none => Option.none

/-- Parse the body of a JSON string literal after the opening quote,
returning the decoded characters and the input after the closing
quote. -/
def parseStrBody : List Char → Option (List Char × List Char)
  | [] => Option.none
  | c :: rest =>
      if c = '"' then some ([], rest)
      else if c = '\\' then
        match rest with
        | [] => Option.none
        | e :: r =>
            if e = '"' then consStr '"' (parseStrBody r)
            else if e = '\\' then consStr '\\' (parseStrBody r)
            else if e = '/' then consStr '/' (parseStrBody r)
            else if e = 'n' then consStr '\n' (parseStrBody r)
            else if e = 't' then consStr '\t' (parseStrBody r)
            else if e = 'r' then consStr '\r' (parseStrBody r)
            else if e = 'b' then consStr (Char.ofNat 8) (parseStrBody r)
            else if e = 'f' then consStr (Char.ofNat 12) (parseStrBody r)
            else if e = 'u' then
              match r with
              | a :: b :: c2 :: d :: r2 =>
                  match hexVal a, hexVal b, hexVal c2, hexVal d with
                  | some ha, some hb, some hc, some hd =>
                      consStr (Char.ofNat (((ha * 16 + hb) * 16 + hc) * 16 + hd))
                        (parseStrBody r2)
                  | _, _, _, _ => Option.none
              | _ => Option.none
            else Option.none
      else consStr c (parseStrBody rest)
termination_by l => l.length
decreasing_by all_goals simp +arith

/-- Accumulate a run of decimal digits. -/
def parseDigits : List Char → Nat → Nat × List Char
  | [], acc => (acc, [])
  | c :: rest, acc =>
      if c.isDigit then parseDigits rest (acc * 10 + (c.toNat - 48))
      else (acc, c :: rest)

/-- Accumulate a run of decimal digits, counting how many were read. -/
def parseDigitsCnt : List Char → Nat → Nat → Nat × Nat × List Char
  | [], acc, k => (acc, k, [])
  | c :: rest, acc, k =>
      if c.isDigit then parseDigitsCnt rest (acc * 10 + (c.toNat - 48)) (k + 1)
      else (acc, k, c :: rest)

/-- The sign applied to a parsed magnitude. -/
def signInt (neg : Bool) (n : Nat) : Int :=
  if neg then -(n : Int) else (n : Int)

/-- After the integer digit run of a number: a dot followed by a digit
starts the fraction of a decimal number; anything else ends an
integer. -/
def parseNumFrac (neg : Bool) (ip : Nat) : List Char → JVal × List Char
  | [] => (JVal.num (signInt neg ip), [])
  | [c] => (JVal.num (signInt neg ip), [c])
  | c :: c2 :: r2 =>
      if c = '.' then
        if c2.isDigit then
          let q := parseDigitsCnt (c2 :: r2) 0 0
          (JVal.dec (signInt neg (ip * 10 ^ q.2.1 + q.1)) (q.2.1 - 1), q.2.2)
        else (JVal.num (signInt neg ip), c :: c2 :: r2)
      else (JVal.num (signInt neg ip), c :: c2 :: r2)

/-- Parse a JSON number: optional minus sign, digit run, optional
fraction (which makes it a decimal number). -/
def parseNum : List Char → Option (JVal × List Char)
  | [] => Option.none
  | c :: rest =>
      if c = '-' then
        match rest with
        | [] => Option.none
        | c2 :: _ =>
            if c2.isDigit then
              let p := parseDigits rest 0
              some (parseNumFrac true p.1 p.2)
            else Option.none
      else if c.isDigit then
        let p := parseDigits (c :: rest) 0
        some (parseNumFrac false p.1 p.2)
      else Option.none

/-- Consume the expected literal characters. -/
def expectChars : List Char → List Char → Option (List Char)
  | [], l => some l
  | _ :: _, [] => Option.none
  | p :: ps, c :: cs => if c = p then expectChars ps cs else Option.none

mutual

/-- A recursive-descent JSON value parser (modelling `json.loads`),
fueled to make the nesting recursion structural. -/
def parseVal : Nat → List Char → Option (JVal × List Char)
  | 0, _ => Option.none
  | fuel + 1, cs =>
      match cs.dropWhile isWs with
      | [] => Option.none
      | c :: cs2 =>
          if c = 'n' then
            match expectChars ['u', 'l', 'l'] cs2 with
            | some rest => some (.null, rest)
            | Option.none => Option.none
          else if c = 't' then
            match expectChars ['r', 'u', 'e'] cs2 with
            | some rest => some (.bool true, rest)
            | Option.none => Option.none
          else if c = 'f' then
            match expectChars ['a', 'l', 's', 'e'] cs2 with
            | some rest => some (.bool false, rest)
            | Option.none => Option.none
          else if c = '"' then
            match parseStrBody cs2 with
            | some p => some (.str p.1, p.2)
            | Option.none => Option.none
          else if c = '[' then
            match cs2.dropWhile isWs with
            | [] => Option.none
            | c2 :: r2 =>
                if c2 = ']' then some (.arr [], r2)
                else
                  match parseElems fuel (c2 :: r2) with
                  | some p => some (.arr p.1, p.2)
                  | Option.none => Option.none
          else if c = lbrace then
            match cs2.dropWhile isWs with
            | [] => Option.none
            | c2 :: r2 =>
                if c2 = rbrace then some (.obj [], r2)
                else
                  match parseFields fuel (c2 :: r2) with
                  | some p => some (.obj p.1, p.2)
                  | Option.none => Option.none
          else if c = '-' || c.isDigit then
            match parseNum (c :: cs2) with
            | some p => some (p.1, p.2)
            | Option.none => Option.none
          else Option.none

/-- Parse `value (',' value)* ']'` after the opening bracket. -/
def parseElems : Nat → List Char → Option (List JVal × List Char)
  | 0, _ => Option.none
  | fuel + 1, cs =>
      match parseVal fuel cs with
      | Option.none => Option.none
      | some (v, r) =>
          match r.dropWhile isWs with
          | [] => Option.none
          | c :: r2 =>
              if c = ',' then
                match parseElems fuel r2 with
                | Option.none => Option.none
                | some (vs, r3) => some (v :: vs, r3)
              else if c = ']' then some ([v], r2)
              else Option.none

/-- Parse `"key": value (',' "key": value)* rbrace` after the opening
brace. -/
def parseFields : Nat → List Char → Option (List (List Char × JVal) × List Char)
  | 0, _ => Option.none
  | fuel + 1, cs =>
      match cs.dropWhile isWs with
      | [] => Option.none
      | c :: r =>
          if c = '"' then
            match parseStrBody r with
            | Option.none => Option.none
            | some (key, r1) =>
                match r1.dropWhile isWs with
                | [] => Option.none
                | c1 :: r2 =>
                    if c1 = ':' then
                      match parseVal fuel r2 with
                      | Option.none => Option.none
                      | some (v, r3) =>
                          match r3.dropWhile isWs with
                          | [] => Option.none
                          | c3 :: r4 =>
                              if c3 = ',' then
                                match parseFields fuel r4 with
                                | Option.none => Option.none
                                | some (fs, r5) => some ((key, v) :: fs, r5)
                              else if c3 = rbrace then some ([(key, v)], r4)
                              else Option.none
                    else Option.none
          else Option.none

end

/-- `json.loads` on one line: parse a value with enough fuel and require
only trailing whitespace. -/
def jsonLoads (cs : List Char) : Option JVal :=
  match parseVal (cs.length + 1) cs with
  | some (v, rest) => if (rest.dropWhile isWs).isEmpty then some v else Option.none
  | Option.none => Option.none

/-- Split a character stream on newline characters (the line structure of
the batch file format). -/
def splitNl : List Char → List (List Char)
  | [] => [[]]
  | c :: rest =>
      if c = '\n' then [] :: splitNl rest
      else
        match splitNl rest with
        | [] => [[c]]
        | l :: ls => (c :: l) :: ls

mutual

/-- A structural size for JSON values, measuring the fuel a parse
needs. -/
def jsize : JVal → Nat
  | .null => 1
  | .bool _ => 1
  | .num _ => 1
  | .dec _ _ => 1
  | .str _ => 1
  | .arr xs => 1 + jsizeL xs
  | .obj fs => 1 + jsizeF fs

/-- Size of an element list. -/
def jsizeL : List JVal → Nat
  | [] => 0
  | x :: xs => 1 + jsize x + jsizeL xs

/-- Size of a field list. -/
def jsizeF : List (List Char × JVal) → Nat
  | [] => 0
  | kv :: fs => 1 + jsize kv.2 + jsizeF fs

end

/-- The next input character is not a digit (so a digit run ends
here). -/
def noLeadingDigit : List Char → Bool
  | [] => true
  | c :: _ => !c.isDigit

/-- The input cannot continue a number: no leading digit, and after a
leading dot no digit either. -/
def noNumCont : List Char → Bool
  | [] => true
  | c :: t => !c.isDigit && (c != '.' || noLeadingDigit t)

theorem expectChars_append (pre rest : List Char) :
    expectChars pre (pre ++ rest) = some rest := by
  induction pre with
  | nil => rfl
  | cons p ps ih => simp [expectChars, ih]

theorem hexVal_hexDigit (d : Nat) (hd : d < 16) : hexVal (hexDigit d) = some d := by
  interval_cases d <;> decide

theorem digitChar_facts (d : Nat) (hd : d < 10) :
    (digitChar d).isDigit = true ∧ isWs (digitChar d) = false
    ∧ digitChar d ≠ '-' ∧ (digitChar d).toNat = 48 + d := by
  interval_cases d <;> refine ⟨by decide, by decide, by decide, by decide⟩

theorem natChars_head (n : Nat) :
    ∃ d t, natChars n = digitChar d :: t ∧ d < 10 := by
  induction n using Nat.strong_induction_on with
  | _ n ih =>
      by_cases h : n < 10
      · exact ⟨n, [], by rw [natChars, dif_pos h], h⟩
      · obtain ⟨d, t, hdt, hd⟩ := ih (n / 10) (Nat.div_lt_self (by omega) (by omega))
        exact ⟨d, t ++ [digitChar (n % 10)],
          by rw [natChars, dif_neg h, hdt]; simp, hd⟩

theorem natChars_all_digits (n : Nat) :
    ∀ c ∈ natChars n, c.isDigit = true := by
  induction n using Nat.strong_induction_on with
  | _ n ih =>
      by_cases h : n < 10
      · rw [natChars, dif_pos h]
        intro c hc
        simp only [List.mem_singleton] at hc
        subst hc
        exact (digitChar_facts n h).1
      · rw [natChars, dif_neg h]
        intro c hc
        rcases List.mem_append.mp hc with hc | hc
        · exact ih (n / 10) (Nat.div_lt_self (by omega) (by omega)) c hc
        · simp only [List.mem_singleton] at hc
          subst hc
          exact (digitChar_facts (n % 10) (Nat.mod_lt _ (by omega))).1

theorem parseDigits_all (ds : List Char) :
    ∀ (rest : List Char) (acc : Nat), (∀ c ∈ ds, c.isDigit = true) →
      noLeadingDigit rest = true →
      parseDigits (ds ++ rest) acc =
        (ds.foldl (fun a c => a * 10 + (c.toNat - 48)) acc, rest) := by
  induction ds with
  | nil =>
      intro rest acc _ hrest
      match rest with
      | [] => rfl
      | c :: t =>
          simp only [noLeadingDigit, Bool.not_eq_true'] at hrest
          simp [parseDigits, hrest]
  | cons d ds ih =>
      intro rest acc hds hrest
      have hd : d.isDigit = true := hds d (by simp)
      simp only [List.cons_append, parseDigits, hd, if_true, List.foldl_cons]
      exact ih rest _ (fun c hc => hds c (by simp [hc])) hrest

theorem natChars_foldl (n : Nat) :
    ∀ acc, (natChars n).foldl (fun a c => a * 10 + (c.toNat - 48)) acc =
      acc * 10 ^ (natChars n).length + n := by
  induction n using Nat.strong_induction_on with
  | _ n ih =>
      intro acc
      by_cases h : n < 10
      · rw [natChars, dif_pos h]
        simp [List.foldl_cons, (digitChar_facts n h).2.2.2]
      · rw [natChars, dif_neg h]
        rw [List.foldl_append, ih (n / 10) (Nat.div_lt_self (by omega) (by omega)) acc]
        simp only [List.foldl_cons, List.foldl_nil, List.length_append,
          List.length_singleton]
        rw [(digitChar_facts (n % 10) (Nat.mod_lt _ (by omega))).2.2.2]
        have hmod : 48 + n % 10 - 48 = n % 10 := by omega
        rw [hmod, pow_succ]
        have hdm := Nat.div_add_mod n 10
        ring_nf
        omega

theorem parseDigits_natChars (n : Nat) (rest : List Char)
    (hrest : noLeadingDigit rest = true) :
    parseDigits (natChars n ++ rest) 0 = (n, rest) := by
  rw [parseDigits_all (natChars n) rest 0 (natChars_all_digits n) hrest,
    natChars_foldl n 0]
  simp

theorem noNumCont_leading (l : List Char) (h : noNumCont l = true) :
    noLeadingDigit l = true := by
  cases l with
  | nil => rfl
  | cons c t =>
      simp only [noNumCont, Bool.and_eq_true] at h
      simp [noLeadingDigit, h.1]

theorem padChars_all_digits (k : Nat) :
    ∀ f, ∀ c ∈ padChars k f, c.isDigit = true := by
  induction k with
  | zero => intro f c hc; simp [padChars] at hc
  | succ k ih =>
      intro f c hc
      simp only [padChars] at hc
      rcases List.mem_append.mp hc with hc | hc
      · exact ih (f / 10) c hc
      · simp only [List.mem_singleton] at hc
        subst hc
        exact (digitChar_facts (f % 10) (Nat.mod_lt _ (by omega))).1

theorem padChars_length (k : Nat) : ∀ f, (padChars k f).length = k := by
  induction k with
  | zero => intro f; rfl
  | succ k ih => intro f; simp [padChars, ih]

theorem padChars_foldl (k : Nat) :
    ∀ f acc, (padChars k f).foldl (fun a c => a * 10 + (c.toNat - 48)) acc
      = acc * 10 ^ k + f % 10 ^ k := by
  induction k with
  | zero => intro f acc; simp [padChars, Nat.mod_one]
  | succ k ih =>
      intro f acc
      simp only [padChars, List.foldl_append, List.foldl_cons, List.foldl_nil]
      rw [ih (f / 10) acc, (digitChar_facts (f % 10) (Nat.mod_lt _ (by omega))).2.2.2]
      have h1 : 48 + f % 10 - 48 = f % 10 := by omega
      have h2 : f % 10 ^ (k + 1) = f % 10 + 10 * (f / 10 % 10 ^ k) := by
        conv_lhs => rw [show (10 : Nat) ^ (k + 1) = 10 * 10 ^ k from by ring]
        rw [Nat.mod_mul]
      rw [h1, h2]
      ring

theorem parseDigitsCnt_all (ds : List Char) :
    ∀ (rest : List Char) (acc k : Nat), (∀ c ∈ ds, c.isDigit = true) →
      noLeadingDigit rest = true →
      parseDigitsCnt (ds ++ rest) acc k =
        (ds.foldl (fun a c => a * 10 + (c.toNat - 48)) acc, k + ds.length, rest) := by
  induction ds with
  | nil =>
      intro rest acc k _ hrest
      match rest with
      | [] => rfl
      | c :: t =>
          simp only [noLeadingDigit, Bool.not_eq_true'] at hrest
          simp [parseDigitsCnt, hrest]
  | cons d ds ih =>
      intro rest acc k hds hrest
      have hd : d.isDigit = true := hds d (by simp)
      simp only [List.cons_append, parseDigitsCnt, hd, if_true, List.foldl_cons,
        List.length_cons, List.append_eq]
      rw [ih rest (acc * 10 + (d.toNat - 48)) (k + 1)
        (fun c hc => hds c (by simp [hc])) hrest]
      have hk : k + 1 + ds.length = k + (ds.length + 1) := by omega
      rw [hk]

theorem parseNumFrac_stop (neg : Bool) (ip : Nat) (rest : List Char)
    (hrest : noNumCont rest = true) :
    parseNumFrac neg ip rest = (JVal.num (signInt neg ip), rest) := by
  match rest with
  | [] => rfl
  | [c] => rfl
  | c :: c2 :: r2 =>
      simp only [noNumCont, Bool.and_eq_true, Bool.or_eq_true, bne_iff_ne] at hrest
      obtain ⟨h1, h2⟩ := hrest
      by_cases hc : c = '.'
      · rcases h2 with h2 | h2
        · exact absurd hc h2
        · simp only [noLeadingDigit, Bool.not_eq_true'] at h2
          subst hc
          simp [parseNumFrac, h2]
      · simp [parseNumFrac, hc]

theorem parseNum_print (n : Int) (rest : List Char)
    (hrest : noNumCont rest = true) :
    parseNum (intChars n ++ rest) = some (JVal.num n, rest) := by
  have hld : noLeadingDigit rest = true := noNumCont_leading rest hrest
  obtain ⟨d, t, hdt, hd⟩ := natChars_head n.natAbs
  have hres : digitChar d :: (t ++ rest) = natChars n.natAbs ++ rest := by
    rw [hdt, List.cons_append]
  by_cases hn : n < 0
  · have h1 : intChars n ++ rest = '-' :: (digitChar d :: (t ++ rest)) := by
      rw [intChars, if_pos hn, hdt]
      simp
    rw [h1, parseNum.eq_def]
    simp only [reduceIte, (digitChar_facts d hd).1, if_true]
    rw [hres, parseDigits_natChars n.natAbs rest hld]
    simp only []
    rw [parseNumFrac_stop true n.natAbs rest hrest]
    have h2 : signInt true n.natAbs = n := by
      simp only [signInt, reduceIte]
      omega
    rw [h2]
  · have h1 : intChars n ++ rest = digitChar d :: (t ++ rest) := by
      rw [intChars, if_neg hn, hdt, List.cons_append]
    rw [h1, parseNum.eq_def]
    simp only [(digitChar_facts d hd).2.2.1, reduceIte, if_false,
      (digitChar_facts d hd).1, if_true]
    rw [hres, parseDigits_natChars n.natAbs rest hld]
    simp only []
    rw [parseNumFrac_stop false n.natAbs rest hrest]
    have h2 : signInt false n.natAbs = n := by
      simp only [signInt, Bool.false_eq_true, if_false]
      omega
    rw [h2]

theorem parseNum_print_dec (m : Int) (s : Nat) (rest : List Char)
    (hrest : noLeadingDigit rest = true) :
    parseNum (decChars m s ++ rest) = some (JVal.dec m s, rest) := by
  have hBpos : 0 < 10 ^ (s + 1) := by positivity
  have hfrlt : m.natAbs % 10 ^ (s + 1) < 10 ^ (s + 1) := Nat.mod_lt _ hBpos
  obtain ⟨d, t, hdt, hd⟩ := natChars_head (m.natAbs / 10 ^ (s + 1))
  have hcnt : parseDigitsCnt (padChars (s + 1) (m.natAbs % 10 ^ (s + 1)) ++ rest) 0 0
      = (m.natAbs % 10 ^ (s + 1), s + 1, rest) := by
    rw [parseDigitsCnt_all _ rest 0 0 (padChars_all_digits (s + 1) _) hrest,
      padChars_foldl (s + 1) _ 0, padChars_length]
    simp [Nat.mod_eq_of_lt hfrlt]
  obtain ⟨pc, pt, hpt⟩ : ∃ pc pt,
      padChars (s + 1) (m.natAbs % 10 ^ (s + 1)) = pc :: pt := by
    cases hpp : padChars (s + 1) (m.natAbs % 10 ^ (s + 1)) with
    | nil =>
        have hlen := padChars_length (s + 1) (m.natAbs % 10 ^ (s + 1))
        rw [hpp] at hlen
        simp at hlen
    | cons pc pt => exact ⟨pc, pt, rfl⟩
  have hpcd : pc.isDigit = true :=
    padChars_all_digits (s + 1) _ pc (by rw [hpt]; simp)
  have hsplit : m.natAbs / 10 ^ (s + 1) * 10 ^ (s + 1) + m.natAbs % 10 ^ (s + 1)
      = m.natAbs := Nat.div_add_mod' _ _
  have hfrac : ∀ neg : Bool,
      parseNumFrac neg (m.natAbs / 10 ^ (s + 1))
          ('.' :: (padChars (s + 1) (m.natAbs % 10 ^ (s + 1)) ++ rest))
        = (JVal.dec (signInt neg m.natAbs) s, rest) := by
    intro neg
    rw [hpt, List.cons_append, parseNumFrac]
    rw [if_pos rfl, if_pos hpcd]
    rw [show pc :: (pt ++ rest)
        = padChars (s + 1) (m.natAbs % 10 ^ (s + 1)) ++ rest
      from by rw [hpt, List.cons_append], hcnt]
    simp only [Nat.add_sub_cancel]
    rw [hsplit]
  have hX : noLeadingDigit
      ('.' :: (padChars (s + 1) (m.natAbs % 10 ^ (s + 1)) ++ rest)) = true := by
    simp [noLeadingDigit]
  by_cases hm : m < 0
  · have h1 : decChars m s ++ rest
        = '-' :: (digitChar d ::
            (t ++ ('.' :: (padChars (s + 1) (m.natAbs % 10 ^ (s + 1)) ++ rest)))) := by
      rw [decChars, if_pos hm, hdt]
      simp
    rw [h1, parseNum.eq_def]
    simp only [reduceIte, (digitChar_facts d hd).1, if_true]
    rw [show digitChar d ::
          (t ++ ('.' :: (padChars (s + 1) (m.natAbs % 10 ^ (s + 1)) ++ rest)))
        = natChars (m.natAbs / 10 ^ (s + 1)) ++
            ('.' :: (padChars (s + 1) (m.natAbs % 10 ^ (s + 1)) ++ rest))
      from by rw [hdt, List.cons_append]]
    rw [parseDigits_natChars _ _ hX]
    simp only []
    rw [hfrac true]
    have h2 : signInt true m.natAbs = m := by
      simp only [signInt, reduceIte]
      omega
    rw [h2]
  · have h1 : decChars m s ++ rest
        = digitChar d ::
            (t ++ ('.' :: (padChars (s + 1) (m.natAbs % 10 ^ (s + 1)) ++ rest))) := by
      rw [decChars, if_neg hm, hdt]
      simp
    rw [h1, parseNum.eq_def]
    simp only [(digitChar_facts d hd).2.2.1, reduceIte, if_false,
      (digitChar_facts d hd).1, if_true]
    rw [show digitChar d ::
          (t ++ ('.' :: (padChars (s + 1) (m.natAbs % 10 ^ (s + 1)) ++ rest)))
        = natChars (m.natAbs / 10 ^ (s + 1)) ++
            ('.' :: (padChars (s + 1) (m.natAbs % 10 ^ (s + 1)) ++ rest))
      from by rw [hdt, List.cons_append]]
    rw [parseDigits_natChars _ _ hX]
    simp only []
    rw [hfrac false]
    have h2 : signInt false m.natAbs = m := by
      simp only [signInt, Bool.false_eq_true, if_false]
      omega
    rw [h2]

theorem parseStrBody_print (s : List Char) :
    ∀ rest, parseStrBody ((s.map escChar).flatten ++ ('"' :: rest)) = some (s, rest) := by
  induction s with
  | nil =>
      intro rest
      rw [List.map_nil, List.flatten_nil, List.nil_append, parseStrBody.eq_def]
      simp
  | cons c s ih =>
      intro rest
      simp only [List.map_cons, List.flatten_cons, List.append_assoc]
      by_cases h1 : c = '"'
      · subst h1
        simp only [escChar, reduceIte, List.cons_append, List.nil_append]
        rw [parseStrBody.eq_def]
        simp [consStr, ih]
      · by_cases h2 : c = '\\'
        · subst h2
          simp only [escChar, reduceIte, List.cons_append, List.nil_append]
          rw [parseStrBody.eq_def]
          simp [consStr, ih]
        · by_cases h3 : c = '\n'
          · subst h3
            simp only [escChar, reduceIte, List.cons_append, List.nil_append]
            rw [parseStrBody.eq_def]
            simp [consStr, ih]
          · by_cases h4 : c = '\t'
            · subst h4
              simp only [escChar, reduceIte, List.cons_append, List.nil_append]
              rw [parseStrBody.eq_def]
              simp [consStr, ih]
            · by_cases h5 : c = '\r'
              · subst h5
                simp only [escChar, reduceIte, List.cons_append, List.nil_append]
                rw [parseStrBody.eq_def]
                simp [consStr, ih]
              · by_cases h6 : c.toNat < 32
                · have hdiv : c.toNat / 16 < 16 := by omega
                  have hmod : c.toNat % 16 < 16 := Nat.mod_lt _ (by omega)
                  have hcomb : c.toNat / 16 * 16 + c.toNat % 16 = c.toNat := by omega
                  simp only [escChar, h1, h2, h3, h4, h5, h6, if_false, if_true,
                    reduceIte, List.cons_append, List.nil_append]
                  have h0 : hexVal '0' = some 0 := by decide
                  rw [parseStrBody.eq_def]
                  simp [h0, hexVal_hexDigit _ hdiv, hexVal_hexDigit _ hmod, consStr, ih]
                  rw [hcomb, Char.ofNat_toNat]
                · simp only [escChar, h1, h2, h3, h4, h5, h6, if_false, reduceIte,
                    List.cons_append, List.nil_append]
                  rw [parseStrBody.eq_def]
                  simp [h1, h2, consStr, ih]

theorem jsize_pos (v : JVal) : 1 ≤ jsize v := by
  cases v <;> simp [jsize]

theorem digitChar_not_special (d : Nat) (hd : d < 10) :
    digitChar d ≠ 'n' ∧ digitChar d ≠ 't' ∧ digitChar d ≠ 'f' ∧ digitChar d ≠ '"'
    ∧ digitChar d ≠ '[' ∧ digitChar d ≠ lbrace ∧ digitChar d ≠ ']' := by
  interval_cases d <;>
    exact ⟨by decide, by decide, by decide, by decide, by decide, by decide, by decide⟩

theorem printVal_head (v : JVal) :
    ∃ c t, printVal v = c :: t ∧ isWs c = false ∧ c ≠ ']' := by
  cases v with
  | null => exact ⟨'n', ['u', 'l', 'l'], by simp [printVal], by decide, by decide⟩
  | bool b =>
      cases b with
      | true => exact ⟨'t', ['r', 'u', 'e'], by simp [printVal], by decide, by decide⟩
      | false => exact ⟨'f', ['a', 'l', 's', 'e'], by simp [printVal], by decide, by decide⟩
  | num n =>
      obtain ⟨d, t, hdt, hd⟩ := natChars_head n.natAbs
      by_cases hn : n < 0
      · exact ⟨'-', natChars n.natAbs,
          by simp [printVal, intChars, hn], by decide, by decide⟩
      · exact ⟨digitChar d, t, by simp [printVal, intChars, hn, hdt],
          (digitChar_facts d hd).2.1, (digitChar_not_special d hd).2.2.2.2.2.2⟩
  | dec m s =>
      obtain ⟨d, t, hdt, hd⟩ := natChars_head (m.natAbs / 10 ^ (s + 1))
      by_cases hm : m < 0
      · exact ⟨'-', natChars (m.natAbs / 10 ^ (s + 1)) ++
            ('.' :: padChars (s + 1) (m.natAbs % 10 ^ (s + 1))),
          by simp [printVal, decChars, hm], by decide, by decide⟩
      · exact ⟨digitChar d, t ++ ('.' :: padChars (s + 1) (m.natAbs % 10 ^ (s + 1))),
          by simp [printVal, decChars, hm, hdt],
          (digitChar_facts d hd).2.1, (digitChar_not_special d hd).2.2.2.2.2.2⟩
  | str s =>
      exact ⟨'"', (s.map escChar).flatten ++ ['"'],
        by simp [printVal, printStr], by decide, by decide⟩
  | arr xs =>
      exact ⟨'[', printElems xs ++ [']'], by simp [printVal], by decide, by decide⟩
  | obj fs =>
      exact ⟨lbrace, printFields fs ++ [rbrace], by simp [printVal], by decide, by decide⟩

theorem dropWhile_cons_not_ws (c : Char) (l : List Char) (hc : isWs c = false) :
    (c :: l).dropWhile isWs = c :: l := by
  simp [List.dropWhile_cons, hc]

theorem parseVal_ws (fuel : Nat) (c : Char) (hc : isWs c = true) (t : List Char) :
    parseVal fuel (c :: t) = parseVal fuel t := by
  cases fuel with
  | zero => rfl
  | succ f =>
      conv_lhs => rw [parseVal.eq_def]
      conv_rhs => rw [parseVal.eq_def]
      simp only [List.dropWhile_cons, hc, if_true]

theorem parseElems_ws (fuel : Nat) (c : Char) (hc : isWs c = true) (t : List Char) :
    parseElems fuel (c :: t) = parseElems fuel t := by
  cases fuel with
  | zero => rfl
  | succ f =>
      conv_lhs => rw [parseElems.eq_def]
      conv_rhs => rw [parseElems.eq_def]
      simp only [parseVal_ws f c hc t]

theorem parseFields_ws (fuel : Nat) (c : Char) (hc : isWs c = true) (t : List Char) :
    parseFields fuel (c :: t) = parseFields fuel t := by
  cases fuel with
  | zero => rfl
  | succ f =>
      conv_lhs => rw [parseFields.eq_def]
      conv_rhs => rw [parseFields.eq_def]
      simp only [List.dropWhile_cons, hc, if_true]

theorem printElems_cons_head (x : JVal) (xs2 : List JVal) :
    ∃ c t, printElems (x :: xs2) = c :: t ∧ isWs c = false ∧ c ≠ ']' := by
  obtain ⟨c, t, hct, hws, hbr⟩ := printVal_head x
  cases xs2 with
  | nil => exact ⟨c, t, by simp [printElems, hct], hws, hbr⟩
  | cons y ys =>
      exact ⟨c, t ++ (',' :: ' ' :: printElems (y :: ys)),
        by simp [printElems, hct], hws, hbr⟩

theorem printFields_cons_head (kv : List Char × JVal) (fs2 : List (List Char × JVal)) :
    ∃ t, printFields (kv :: fs2) = '"' :: t := by
  cases fs2 with
  | nil =>
      exact ⟨(kv.1.map escChar).flatten ++ ['"'] ++ (':' :: ' ' :: printVal kv.2),
        by simp [printFields, printStr]⟩
  | cons kv2 fs3 =>
      exact ⟨(kv.1.map escChar).flatten ++ ['"'] ++ (':' :: ' ' :: printVal kv.2) ++
          (',' :: ' ' :: printFields (kv2 :: fs3)),
        by simp [printFields, printStr]⟩

theorem parse_print_trio :
    ∀ fuel : Nat,
      (∀ (v : JVal) (rest : List Char), jsize v < fuel → noNumCont rest = true →
        parseVal fuel (printVal v ++ rest) = some (v, rest))
      ∧ (∀ (xs : List JVal) (rest : List Char), xs ≠ [] → jsizeL xs < fuel →
        parseElems fuel (printElems xs ++ (']' :: rest)) = some (xs, rest))
      ∧ (∀ (fs : List (List Char × JVal)) (rest : List Char), fs ≠ [] → jsizeF fs < fuel →
        parseFields fuel (printFields fs ++ (rbrace :: rest)) = some (fs, rest)) := by
  intro fuel
  induction fuel with
  | zero =>
      refine ⟨?_, ?_, ?_⟩
      · intro v rest hsize _
        have := jsize_pos v
        omega
      · intro xs rest hne hsize
        omega
      · intro fs rest hne hsize
        omega
  | succ fuel ih =>
      obtain ⟨ihV, ihE, ihF⟩ := ih
      refine ⟨?_, ?_, ?_⟩
      · intro v rest hsize hrest
        match v with
        | .null =>
            have hp : printVal JVal.null ++ rest = 'n' :: 'u' :: 'l' :: 'l' :: rest := by
              simp [printVal]
            rw [hp, parseVal.eq_def]
            simp [isWs, expectChars]
        | .bool true =>
            have hp : printVal (JVal.bool true) ++ rest = 't' :: 'r' :: 'u' :: 'e' :: rest := by
              simp [printVal]
            rw [hp, parseVal.eq_def]
            simp [isWs, expectChars]
        | .bool false =>
            have hp : printVal (JVal.bool false) ++ rest
                = 'f' :: 'a' :: 'l' :: 's' :: 'e' :: rest := by
              simp [printVal]
            rw [hp, parseVal.eq_def]
            simp [isWs, expectChars]
        | .str s2 =>
            have hp : printVal (JVal.str s2) ++ rest
                = '"' :: ((s2.map escChar).flatten ++ ('"' :: rest)) := by
              simp [printVal, printStr]
            rw [hp, parseVal.eq_def]
            simp [isWs, parseStrBody_print s2 rest]
        | .num n =>
            by_cases hn : n < 0
            · have hp : printVal (JVal.num n) ++ rest
                  = '-' :: (natChars n.natAbs ++ rest) := by
                simp [printVal, intChars, hn]
              have hq : '-' :: (natChars n.natAbs ++ rest) = intChars n ++ rest := by
                simp [intChars, hn]
              rw [hp, parseVal.eq_def]
              simp only [List.dropWhile_cons, show isWs '-' = false from by decide,
                Bool.false_eq_true, if_false,
                show (('-' : Char) = 'n') = False from by simp,
                show (('-' : Char) = 't') = False from by simp,
                show (('-' : Char) = 'f') = False from by simp,
                show (('-' : Char) = '"') = False from by simp,
                show (('-' : Char) = '[') = False from by simp,
                show (('-' : Char) = lbrace) = False from by simp [lbrace],
                show ((('-' : Char) = '-') ∨ ('-' : Char).isDigit = true) = True from by simp,
                if_true, reduceIte]
              rw [hq, parseNum_print n rest hrest]
              simp
            · obtain ⟨d, t2, hdt, hd⟩ := natChars_head n.natAbs
              have hp : printVal (JVal.num n) ++ rest = digitChar d :: (t2 ++ rest) := by
                simp [printVal, intChars, hn, hdt]
              have hq : digitChar d :: (t2 ++ rest) = intChars n ++ rest := by
                simp [intChars, hn, hdt]
              obtain ⟨hn1, hn2, hn3, hn4, hn5, hn6, hn7⟩ := digitChar_not_special d hd
              obtain ⟨hdig, hnws, hnminus, _⟩ := digitChar_facts d hd
              rw [hp, parseVal.eq_def]
              simp only [List.dropWhile_cons, hnws, Bool.false_eq_true, if_false,
                hn1, hn2, hn3, hn4, hn5, hn6, hdig, hnminus,
                show ((digitChar d = '-') ∨ (digitChar d).isDigit = true)
                    = True from by simp [hnminus, hdig],
                if_true, reduceIte]
              rw [hq, parseNum_print n rest hrest]
              simp
        | .dec m s =>
            have hld : noLeadingDigit rest = true := noNumCont_leading rest hrest
            by_cases hm : m < 0
            · have hp : printVal (JVal.dec m s) ++ rest
                  = '-' :: ((natChars (m.natAbs / 10 ^ (s + 1)) ++
                      ('.' :: padChars (s + 1) (m.natAbs % 10 ^ (s + 1)))) ++ rest) := by
                simp [printVal, decChars, hm]
              have hq : '-' :: ((natChars (m.natAbs / 10 ^ (s + 1)) ++
                      ('.' :: padChars (s + 1) (m.natAbs % 10 ^ (s + 1)))) ++ rest)
                  = decChars m s ++ rest := by
                simp [decChars, hm]
              rw [hp, parseVal.eq_def]
              simp only [List.dropWhile_cons, show isWs '-' = false from by decide,
                Bool.false_eq_true, if_false,
                show (('-' : Char) = 'n') = False from by simp,
                show (('-' : Char) = 't') = False from by simp,
                show (('-' : Char) = 'f') = False from by simp,
                show (('-' : Char) = '"') = False from by simp,
                show (('-' : Char) = '[') = False from by simp,
                show (('-' : Char) = lbrace) = False from by simp [lbrace],
                show ((('-' : Char) = '-') ∨ ('-' : Char).isDigit = true) = True from by simp,
                if_true, reduceIte]
              rw [hq, parseNum_print_dec m s rest hld]
              simp
            · obtain ⟨d, t2, hdt, hd⟩ := natChars_head (m.natAbs / 10 ^ (s + 1))
              have hp : printVal (JVal.dec m s) ++ rest
                  = digitChar d :: ((t2 ++
                      ('.' :: padChars (s + 1) (m.natAbs % 10 ^ (s + 1)))) ++ rest) := by
                simp [printVal, decChars, hm, hdt]
              have hq : digitChar d :: ((t2 ++
                      ('.' :: padChars (s + 1) (m.natAbs % 10 ^ (s + 1)))) ++ rest)
                  = decChars m s ++ rest := by
                simp [decChars, hm, hdt]
              obtain ⟨hn1, hn2, hn3, hn4, hn5, hn6, hn7⟩ := digitChar_not_special d hd
              obtain ⟨hdig, hnws, hnminus, _⟩ := digitChar_facts d hd
              rw [hp, parseVal.eq_def]
              simp only [List.dropWhile_cons, hnws, Bool.false_eq_true, if_false,
                hn1, hn2, hn3, hn4, hn5, hn6, hdig, hnminus,
                show ((digitChar d = '-') ∨ (digitChar d).isDigit = true)
                    = True from by simp [hnminus, hdig],
                if_true, reduceIte]
              rw [hq, parseNum_print_dec m s rest hld]
              simp
        | .arr [] =>
            have hp : printVal (JVal.arr []) ++ rest = '[' :: (']' :: rest) := by
              simp [printVal, printElems]
            rw [hp, parseVal.eq_def]
            simp [isWs]
        | .arr (x :: xs2) =>
            have hp : printVal (JVal.arr (x :: xs2)) ++ rest
                = '[' :: (printElems (x :: xs2) ++ (']' :: rest)) := by
              simp [printVal]
            obtain ⟨c0, t0, hct, hws0, hbr0⟩ := printElems_cons_head x xs2
            have hsplit : printElems (x :: xs2) ++ (']' :: rest)
                = c0 :: (t0 ++ (']' :: rest)) := by
              rw [hct]
              simp
            have hsize2 : jsizeL (x :: xs2) < fuel := by
              simp only [jsize] at hsize
              omega
            rw [hp, parseVal.eq_def]
            rw [hsplit]
            simp only [List.dropWhile_cons, show isWs '[' = false from by decide,
              Bool.false_eq_true, if_false, hws0]
            simp only [show (('[' : Char) = 'n') = False from by simp,
              show (('[' : Char) = 't') = False from by simp,
              show (('[' : Char) = 'f') = False from by simp,
              show (('[' : Char) = '"') = False from by simp,
              if_false, reduceIte]
            rw [if_neg hbr0, ← hsplit, ihE (x :: xs2) rest (by simp) hsize2]
        | .obj [] =>
            have hp : printVal (JVal.obj []) ++ rest = lbrace :: (rbrace :: rest) := by
              simp [printVal, printFields]
            rw [hp, parseVal.eq_def]
            simp [isWs, lbrace, rbrace]
        | .obj (kv :: fs2) =>
            have hp : printVal (JVal.obj (kv :: fs2)) ++ rest
                = lbrace :: (printFields (kv :: fs2) ++ (rbrace :: rest)) := by
              simp [printVal]
            obtain ⟨t0, hct⟩ := printFields_cons_head kv fs2
            have hsplit : printFields (kv :: fs2) ++ (rbrace :: rest)
                = '"' :: (t0 ++ (rbrace :: rest)) := by
              rw [hct]
              simp
            have hsize2 : jsizeF (kv :: fs2) < fuel := by
              simp only [jsize] at hsize
              omega
            rw [hp, parseVal.eq_def]
            rw [hsplit]
            simp only [List.dropWhile_cons, show isWs lbrace = false from by decide,
              Bool.false_eq_true, if_false, show isWs '"' = false from by decide]
            simp only [show ((lbrace : Char) = 'n') = False from by simp [lbrace],
              show ((lbrace : Char) = 't') = False from by simp [lbrace],
              show ((lbrace : Char) = 'f') = False from by simp [lbrace],
              show ((lbrace : Char) = '"') = False from by simp [lbrace],
              show ((lbrace : Char) = '[') = False from by simp [lbrace],
              show (('"' : Char) = rbrace) = False from by simp [rbrace],
              if_false, reduceIte]
            rw [← hsplit, ihF (kv :: fs2) rest (by simp) hsize2]
      · intro xs rest hne hsize
        match xs with
        | [x] =>
            have hcs : printElems [x] ++ (']' :: rest) = printVal x ++ (']' :: rest) := by
              simp [printElems]
            have hsx : jsize x < fuel := by
              simp only [jsizeL] at hsize
              omega
            rw [parseElems.eq_def, hcs]
            simp only []
            rw [ihV x (']' :: rest) hsx (by simp [noNumCont])]
            simp [isWs]
        | x :: y :: ys =>
            have hcs : printElems (x :: y :: ys) ++ (']' :: rest)
                = printVal x ++ (',' :: ' ' :: (printElems (y :: ys) ++ (']' :: rest))) := by
              simp [printElems]
            have hsx : jsize x < fuel := by
              simp only [jsizeL] at hsize
              omega
            have hsy : jsizeL (y :: ys) < fuel := by
              simp only [jsizeL] at hsize ⊢
              have := jsize_pos x
              omega
            rw [parseElems.eq_def, hcs]
            simp only []
            rw [ihV x (',' :: ' ' :: (printElems (y :: ys) ++ (']' :: rest))) hsx
              (by simp [noNumCont])]
            simp only [List.dropWhile_cons, show isWs ',' = false from by decide,
              Bool.false_eq_true, if_false, reduceIte]
            rw [parseElems_ws fuel ' ' (by decide) _,
              ihE (y :: ys) rest (by simp) hsy]
      · intro fs rest hne hsize
        match fs with
        | [kv] =>
            have hcs : printFields [kv] ++ (rbrace :: rest)
                = '"' :: ((kv.1.map escChar).flatten ++
                    ('"' :: (':' :: ' ' :: (printVal kv.2 ++ (rbrace :: rest))))) := by
              simp [printFields, printStr]
            have hsv : jsize kv.2 < fuel := by
              simp only [jsizeF] at hsize
              omega
            rw [parseFields.eq_def, hcs]
            simp only []
            simp only [List.dropWhile_cons, show isWs '"' = false from by decide,
              Bool.false_eq_true, if_false, reduceIte]
            rw [parseStrBody_print kv.1 _]
            simp only [List.dropWhile_cons, show isWs ':' = false from by decide,
              Bool.false_eq_true, if_false, reduceIte]
            rw [parseVal_ws fuel ' ' (by decide) _,
              ihV kv.2 (rbrace :: rest) hsv (by simp [noNumCont, rbrace])]
            simp only [List.dropWhile_cons, show isWs rbrace = false from by decide,
              Bool.false_eq_true, if_false,
              show ((rbrace : Char) = ',') = False from by simp [rbrace], reduceIte]
        | kv :: kv2 :: fs3 =>
            have hcs : printFields (kv :: kv2 :: fs3) ++ (rbrace :: rest)
                = '"' :: ((kv.1.map escChar).flatten ++
                    ('"' :: (':' :: ' ' :: (printVal kv.2 ++
                      (',' :: ' ' :: (printFields (kv2 :: fs3) ++ (rbrace :: rest))))))) := by
              simp [printFields, printStr]
            have hsv : jsize kv.2 < fuel := by
              simp only [jsizeF] at hsize
              omega
            have hsf : jsizeF (kv2 :: fs3) < fuel := by
              simp only [jsizeF] at hsize ⊢
              have := jsize_pos kv.2
              omega
            rw [parseFields.eq_def, hcs]
            simp only []
            simp only [List.dropWhile_cons, show isWs '"' = false from by decide,
              Bool.false_eq_true, if_false, reduceIte]
            rw [parseStrBody_print kv.1 _]
            simp only [List.dropWhile_cons, show isWs ':' = false from by decide,
              Bool.false_eq_true, if_false, reduceIte]
            rw [parseVal_ws fuel ' ' (by decide) _,
              ihV kv.2 _ hsv (by simp [noNumCont])]
            simp only [List.dropWhile_cons, show isWs ',' = false from by decide,
              Bool.false_eq_true, if_false, reduceIte]
            rw [parseFields_ws fuel ' ' (by decide) _,
              ihF (kv2 :: fs3) rest (by simp) hsf]

theorem print_length_trio : ∀ n : Nat,
    (∀ v, jsize v ≤ n → jsize v ≤ (printVal v).length)
    ∧ (∀ xs, jsizeL xs ≤ n → jsizeL xs ≤ 1 + (printElems xs).length)
    ∧ (∀ fs, jsizeF fs ≤ n → jsizeF fs ≤ 1 + (printFields fs).length) := by
  intro n
  induction n with
  | zero =>
      refine ⟨?_, ?_, ?_⟩
      · intro v hv
        have := jsize_pos v
        omega
      · intro xs hxs
        omega
      · intro fs hfs
        omega
  | succ n ih =>
      obtain ⟨ihV, ihE, ihF⟩ := ih
      refine ⟨?_, ?_, ?_⟩
      · intro v hv
        match v with
        | .null => simp [printVal, jsize]
        | .bool true => simp [printVal, jsize]
        | .bool false => simp [printVal, jsize]
        | .num m =>
            obtain ⟨d, t, hdt, _⟩ := natChars_head m.natAbs
            by_cases hm : m < 0 <;>
              simp [printVal, jsize, intChars, hm, hdt]
        | .dec m s =>
            obtain ⟨d, t, hdt, _⟩ := natChars_head (m.natAbs / 10 ^ (s + 1))
            by_cases hm : m < 0 <;>
              simp [printVal, jsize, decChars, hm, hdt]
        | .str s2 => simp [printVal, jsize, printStr]
        | .arr xs =>
            have h1 : jsizeL xs ≤ n := by
              simp only [jsize] at hv
              omega
            have h2 := ihE xs h1
            simp only [jsize, printVal, List.length_cons, List.length_append,
              List.length_singleton]
            omega
        | .obj fs =>
            have h1 : jsizeF fs ≤ n := by
              simp only [jsize] at hv
              omega
            have h2 := ihF fs h1
            simp only [jsize, printVal, List.length_cons, List.length_append,
              List.length_singleton]
            omega
      · intro xs hxs
        match xs with
        | [] => simp [jsizeL]
        | [x] =>
            have h1 : jsize x ≤ n := by
              simp only [jsizeL] at hxs
              omega
            have h2 := ihV x h1
            simp only [jsizeL, printElems]
            omega
        | x :: y :: ys =>
            have h1 : jsize x ≤ n := by
              simp only [jsizeL] at hxs
              omega
            have h2 : jsizeL (y :: ys) ≤ n := by
              simp only [jsizeL] at hxs ⊢
              have := jsize_pos x
              omega
            have h3 := ihV x h1
            have h4 := ihE (y :: ys) h2
            simp only [jsizeL, printElems, List.length_append, List.length_cons] at h4 ⊢
            omega
      · intro fs hfs
        match fs with
        | [] => simp [jsizeF]
        | [kv] =>
            have h1 : jsize kv.2 ≤ n := by
              simp only [jsizeF] at hfs
              omega
            have h2 := ihV kv.2 h1
            simp only [jsizeF, printFields, List.length_append, List.length_cons]
            omega
        | kv :: kv2 :: fs3 =>
            have h1 : jsize kv.2 ≤ n := by
              simp only [jsizeF] at hfs
              omega
            have h2 : jsizeF (kv2 :: fs3) ≤ n := by
              simp only [jsizeF] at hfs ⊢
              have := jsize_pos kv.2
              omega
            have h3 := ihV kv.2 h1
            have h4 := ihF (kv2 :: fs3) h2
            simp only [jsizeF, printFields, List.length_append, List.length_cons] at h4 ⊢
            omega

theorem isDigit_ne_newline (c : Char) (hc : c.isDigit = true) : c ≠ '\n' := by
  intro h
  subst h
  simp [Char.isDigit] at hc

theorem hexDigit_ne_newline (d : Nat) (hd : d < 16) : hexDigit d ≠ '\n' := by
  interval_cases d <;> decide

theorem escChar_no_newline (a c : Char) (hc : c ∈ escChar a) : c ≠ '\n' := by
  by_cases h1 : a = '"'
  · rw [show escChar a = ['\\', '"'] from by simp [escChar, h1]] at hc
    fin_cases hc <;> decide
  · by_cases h2 : a = '\\'
    · rw [show escChar a = ['\\', '\\'] from by simp [escChar, h1, h2]] at hc
      fin_cases hc <;> decide
    · by_cases h3 : a = '\n'
      · rw [show escChar a = ['\\', 'n'] from by simp [escChar, h1, h2, h3]] at hc
        fin_cases hc <;> decide
      · by_cases h4 : a = '\t'
        · rw [show escChar a = ['\\', 't'] from by simp [escChar, h1, h2, h3, h4]] at hc
          fin_cases hc <;> decide
        · by_cases h5 : a = '\r'
          · rw [show escChar a = ['\\', 'r'] from by
              simp [escChar, h1, h2, h3, h4, h5]] at hc
            fin_cases hc <;> decide
          · by_cases h6 : a.toNat < 32
            · rw [show escChar a = ['\\', 'u', '0', '0', hexDigit (a.toNat / 16),
                  hexDigit (a.toNat % 16)] from by
                simp [escChar, h1, h2, h3, h4, h5, h6]] at hc
              fin_cases hc
              · decide
              · decide
              · decide
              · decide
              · exact hexDigit_ne_newline (a.toNat / 16) (by omega)
              · exact hexDigit_ne_newline (a.toNat % 16) (Nat.mod_lt _ (by omega))
            · rw [show escChar a = [a] from by
                simp [escChar, h1, h2, h3, h4, h5, h6]] at hc
              simp only [List.mem_singleton] at hc
              subst hc
              intro heq
              rw [heq] at h6
              simp at h6

theorem printStr_no_newline (s : List Char) (c : Char) (hc : c ∈ printStr s) :
    c ≠ '\n' := by
  simp only [printStr, List.mem_cons] at hc
  rcases hc with hc | hc
  · subst hc; decide
  · rcases List.mem_append.mp hc with hc2 | hc2
    · obtain ⟨l, hl, hcl⟩ := List.mem_flatten.mp hc2
      obtain ⟨a, _, ha⟩ := List.mem_map.mp hl
      exact escChar_no_newline a c (ha ▸ hcl)
    · have hcq : c = '"' := by simpa using hc2
      subst hcq; decide

theorem intChars_no_newline (m : Int) (c : Char) (hc : c ∈ intChars m) : c ≠ '\n' := by
  by_cases hm : m < 0
  · simp only [intChars, if_pos hm, List.mem_cons] at hc
    rcases hc with hc | hc
    · subst hc; decide
    · exact isDigit_ne_newline c (natChars_all_digits m.natAbs c hc)
  · simp only [intChars, if_neg hm] at hc
    exact isDigit_ne_newline c (natChars_all_digits m.natAbs c hc)

theorem decChars_no_newline (m : Int) (s : Nat) (c : Char) (hc : c ∈ decChars m s) :
    c ≠ '\n' := by
  rw [decChars] at hc
  by_cases hm : m < 0
  · rw [if_pos hm] at hc
    simp only [List.cons_append, List.nil_append,
      List.mem_cons, List.mem_append] at hc
    rcases hc with hc | hc | hc | hc
    · subst hc; decide
    · exact isDigit_ne_newline c (natChars_all_digits _ c hc)
    · subst hc; decide
    · exact isDigit_ne_newline c (padChars_all_digits (s + 1) _ c hc)
  · rw [if_neg hm] at hc
    simp only [List.nil_append, List.mem_append, List.mem_cons] at hc
    rcases hc with hc | hc | hc
    · exact isDigit_ne_newline c (natChars_all_digits _ c hc)
    · subst hc; decide
    · exact isDigit_ne_newline c (padChars_all_digits (s + 1) _ c hc)

theorem print_no_newline_trio : ∀ n : Nat,
    (∀ v, jsize v ≤ n → ∀ c ∈ printVal v, c ≠ '\n')
    ∧ (∀ xs, jsizeL xs ≤ n → ∀ c ∈ printElems xs, c ≠ '\n')
    ∧ (∀ fs, jsizeF fs ≤ n → ∀ c ∈ printFields fs, c ≠ '\n') := by
  intro n
  induction n with
  | zero =>
      refine ⟨?_, ?_, ?_⟩
      · intro v hv
        have := jsize_pos v
        omega
      · intro xs hxs c hc
        match xs with
        | [] => simp [printElems] at hc
        | x :: xs2 =>
            simp only [jsizeL] at hxs
            omega
      · intro fs hfs c hc
        match fs with
        | [] => simp [printFields] at hc
        | kv :: fs2 =>
            simp only [jsizeF] at hfs
            omega
  | succ n ih =>
      obtain ⟨ihV, ihE, ihF⟩ := ih
      refine ⟨?_, ?_, ?_⟩
      · intro v hv c hc
        match v with
        | .null =>
            rw [show printVal JVal.null = ['n', 'u', 'l', 'l'] from by simp [printVal]] at hc
            fin_cases hc <;> decide
        | .bool true =>
            rw [show printVal (JVal.bool true) = ['t', 'r', 'u', 'e'] from by
              simp [printVal]] at hc
            fin_cases hc <;> decide
        | .bool false =>
            rw [show printVal (JVal.bool false) = ['f', 'a', 'l', 's', 'e'] from by
              simp [printVal]] at hc
            fin_cases hc <;> decide
        | .num m =>
            simp only [printVal] at hc
            exact intChars_no_newline m c hc
        | .dec m s =>
            simp only [printVal] at hc
            exact decChars_no_newline m s c hc
        | .str s2 =>
            simp only [printVal] at hc
            exact printStr_no_newline s2 c hc
        | .arr xs =>
            have h1 : jsizeL xs ≤ n := by
              simp only [jsize] at hv
              omega
            simp only [printVal, List.mem_cons, List.mem_append,
              List.mem_singleton, List.not_mem_nil, or_false] at hc
            rcases hc with hc | hc | hc
            · subst hc; decide
            · exact ihE xs h1 c hc
            · subst hc; decide
        | .obj fs =>
            have h1 : jsizeF fs ≤ n := by
              simp only [jsize] at hv
              omega
            simp only [printVal, List.mem_cons, List.mem_append,
              List.mem_singleton, List.not_mem_nil, or_false] at hc
            rcases hc with hc | hc | hc
            · subst hc; decide
            · exact ihF fs h1 c hc
            · subst hc; decide
      · intro xs hxs c hc
        match xs with
        | [] => simp [printElems] at hc
        | [x] =>
            have h1 : jsize x ≤ n := by
              simp only [jsizeL] at hxs
              omega
            simp only [printElems] at hc
            exact ihV x h1 c hc
        | x :: y :: ys =>
            have h1 : jsize x ≤ n := by
              simp only [jsizeL] at hxs
              omega
            have h2 : jsizeL (y :: ys) ≤ n := by
              simp only [jsizeL] at hxs ⊢
              have := jsize_pos x
              omega
            simp only [printElems, List.mem_append, List.mem_cons] at hc
            rcases hc with hc | hc | hc | hc
            · exact ihV x h1 c hc
            · subst hc; decide
            · subst hc; decide
            · exact ihE (y :: ys) h2 c hc
      · intro fs hfs c hc
        match fs with
        | [] => simp [printFields] at hc
        | [kv] =>
            have h1 : jsize kv.2 ≤ n := by
              simp only [jsizeF] at hfs
              omega
            simp only [printFields, List.mem_append, List.mem_cons] at hc
            rcases hc with hc | hc | hc | hc
            · exact printStr_no_newline kv.1 c hc
            · subst hc; decide
            · subst hc; decide
            · exact ihV kv.2 h1 c hc
        | kv :: kv2 :: fs3 =>
            have h1 : jsize kv.2 ≤ n := by
              simp only [jsizeF] at hfs
              omega
            have h2 : jsizeF (kv2 :: fs3) ≤ n := by
              simp only [jsizeF] at hfs ⊢
              have := jsize_pos kv.2
              omega
            simp only [printFields, List.mem_append, List.mem_cons] at hc
            rcases hc with ((hc | hc | hc | hc) | hc | hc | hc)
            · exact printStr_no_newline kv.1 c hc
            · subst hc; decide
            · subst hc; decide
            · exact ihV kv.2 h1 c hc
            · subst hc; decide
            · subst hc; decide
            · exact ihF (kv2 :: fs3) h2 c hc

theorem splitNl_line (l : List Char) :
    ∀ t, (∀ c ∈ l, c ≠ '\n') → splitNl (l ++ ('\n' :: t)) = l :: splitNl t := by
  induction l with
  | nil =>
      intro t _
      simp [splitNl]
  | cons c l ih =>
      intro t hl
      have hc : ¬c = '\n' := hl c (by simp)
      rw [List.cons_append, splitNl.eq_def]
      simp only [if_neg hc]
      rw [ih t (fun a ha => hl a (by simp [ha]))]

theorem jsonLoads_print (v : JVal) : jsonLoads (printVal v) = some v := by
  unfold jsonLoads
  have hlen : jsize v ≤ (printVal v).length := (print_length_trio (jsize v)).1 v le_rfl
  have h := (parse_print_trio ((printVal v).length + 1)).1 v [] (by omega)
    (by simp [noNumCont])
  rw [List.append_nil] at h
  rw [h]
  simp

/-- **C8.**  Round trip for a Conformed Record: serializing it as one
JSON line with a trailing newline into a gzip stream, then decompressing
(any correct gzip implementation — an inverse pair of functions),
splitting the stream on newlines, and JSON-parsing the line yields a
mapping equal to the original record. -/
theorem conformed_record_serialization_roundtrip {γ : Type}
    (gzipCompress : List Char → γ) (gzipDecompress : γ → List Char)
    (hgz : ∀ bs, gzipDecompress (gzipCompress bs) = bs)
    (r : List (List Char × JVal)) :
    splitNl (gzipDecompress (gzipCompress (printVal (JVal.obj r) ++ ['\n']))) =
      [printVal (JVal.obj r), []]
    ∧ jsonLoads (printVal (JVal.obj r)) = some (JVal.obj r) := by
  constructor
  · rw [hgz]
    have hnl : ∀ c ∈ printVal (JVal.obj r), c ≠ '\n' :=
      (print_no_newline_trio (jsize (JVal.obj r))).1 _ le_rfl
    have h := splitNl_line (printVal (JVal.obj r)) [] hnl
    simpa [splitNl] using h
  · exact jsonLoads_print (JVal.obj r)

theorem conformed_record_serialization_roundtrip_witness :
    (∀ bs : List Char, id (id bs) = bs)
    ∧ (splitNl (id (id (printVal (JVal.obj
          [([Char.ofNat 97], JVal.num 1),
           ([Char.ofNat 98], JVal.dec 123456789 3)]) ++ ['\n']))) =
        [printVal (JVal.obj
          [([Char.ofNat 97], JVal.num 1),
           ([Char.ofNat 98], JVal.dec 123456789 3)]), []]
      ∧ jsonLoads (printVal (JVal.obj
          [([Char.ofNat 97], JVal.num 1),
           ([Char.ofNat 98], JVal.dec 123456789 3)])) =
          some (JVal.obj
            [([Char.ofNat 97], JVal.num 1),
             ([Char.ofNat 98], JVal.dec 123456789 3)])) :=
  ⟨fun _ => rfl,
    conformed_record_serialization_roundtrip id id (fun _ => rfl)
      [([Char.ofNat 97], JVal.num 1),
       ([Char.ofNat 98], JVal.dec 123456789 3)]⟩

end TapRawMysql
